import Mathlib

/-!
Verification of the EEG motor-imagery collector's core engine.

The JavaScript sources are shallowly embedded: JS numbers are modelled as
rationals (ℚ), JS objects with a fixed key set as Lean structures, and the
per-frame `animate` callbacks as explicit state-transition functions.  The
append-only data log never feeds back into the control state, so it is not
carried in the machine states; the per-tick logging condition is modelled
separately (`shouldLog`).
-/

/-! ### Interpolation utilities (src/unnamed/part_003) -/

/-- Linear interpolation between two values: `(a, b, t) => a + (b - a) * t`. -/
def lerp (a b t : ℚ) : ℚ := a + (b - a) * t

/-- Minimum-jerk curve `10t³ - 15t⁴ + 6t⁵`, written as in the source via
repeated products. -/
def minimumJerk (t : ℚ) : ℚ :=
  let t3 := t * t * t
  let t4 := t3 * t
  let t5 := t4 * t
  10 * t3 - 15 * t4 + 6 * t5

/-- Ease-in-out curve: `t < 0.5 ? 2t² : 1 - (-2t+2)²/2`. -/
def easeInOut (t : ℚ) : ℚ :=
  if t < 1/2 then 2 * t * t else 1 - (-2 * t + 2) ^ 2 / 2

/-- The interpolation-type selector strings accepted by `interpolateJoints`
(the `switch` default also maps to minimum jerk, so three cases suffice). -/
inductive InterpolationType
  | linear
  | easeInOut
  | minimumJerk
deriving DecidableEq

/-- The `switch (interpolationType)` at the top of `interpolateJoints`,
producing `smoothT` from `t`. -/
def smoothT (ty : InterpolationType) (t : ℚ) : ℚ :=
  match ty with
  | .linear => t
  | .easeInOut => easeInOut t
  | .minimumJerk => minimumJerk t

/-- Thumb joint angles `{ cmc, mcp, ip }` of a pose. -/
@[ext] structure ThumbJoints where
  cmc : ℚ
  mcp : ℚ
  ip : ℚ
deriving DecidableEq

/-- Index/pinky joint angles `{ mcp, pip, dip }` of a pose. -/
@[ext] structure FingerJoints where
  mcp : ℚ
  pip : ℚ
  dip : ℚ
deriving DecidableEq

/-- A full hand pose: the three finger groups with all nine joints defined
(the JS pose objects also carry display-only `name`/`description` strings,
which never influence the engine and are dropped here). -/
@[ext] structure Pose where
  thumb : ThumbJoints
  index : FingerJoints
  pinky : FingerJoints
deriving DecidableEq

/-- `interpolateJoints` on a thumb joint object: for full poses the JS
`for (const joint in joints1)` loop blends every joint present in both. -/
def interpolateThumb (j1 j2 : ThumbJoints) (t : ℚ) (ty : InterpolationType) : ThumbJoints :=
  let s := smoothT ty t
  ⟨lerp j1.cmc j2.cmc s, lerp j1.mcp j2.mcp s, lerp j1.ip j2.ip s⟩

/-- `interpolateJoints` on an index/pinky joint object. -/
def interpolateFinger (j1 j2 : FingerJoints) (t : ℚ) (ty : InterpolationType) : FingerJoints :=
  let s := smoothT ty t
  ⟨lerp j1.mcp j2.mcp s, lerp j1.pip j2.pip s, lerp j1.dip j2.dip s⟩

/-- `interpolatePoses(pose1, pose2, t, interpolationType)`. -/
def interpolatePoses (p1 p2 : Pose) (t : ℚ) (ty : InterpolationType) : Pose :=
  ⟨interpolateThumb p1.thumb p2.thumb t ty,
   interpolateFinger p1.index p2.index t ty,
   interpolateFinger p1.pinky p2.pinky t ty⟩

/-! ### Pose library (src/src/utils/handPoses.js) -/

/-- The `neutral` pose. -/
def neutralPose : Pose :=
  ⟨⟨1/10, 15/100, 1/10⟩, ⟨15/100, 15/100, 1/10⟩, ⟨2/10, 2/10, 15/100⟩⟩

/-- The `open` pose. -/
def openPose : Pose :=
  ⟨⟨3/10, 0, 0⟩, ⟨0, 0, 0⟩, ⟨0, 0, 0⟩⟩

/-- The `closedGrasp` pose. -/
def closedGraspPose : Pose :=
  ⟨⟨7/10, 8/10, 7/10⟩, ⟨85/100, 9/10, 8/10⟩, ⟨9/10, 95/100, 85/100⟩⟩

/-- The `thumbIndexPinch` pose. -/
def thumbIndexPinchPose : Pose :=
  ⟨⟨85/100, 7/10, 5/10⟩, ⟨65/100, 7/10, 55/100⟩, ⟨3/10, 35/100, 25/100⟩⟩

/-- The `indexExtension` pose. -/
def indexExtensionPose : Pose :=
  ⟨⟨4/10, 6/10, 5/10⟩, ⟨0, 0, 0⟩, ⟨8/10, 85/100, 75/100⟩⟩

/-- The `pinkyExtension` pose. -/
def pinkyExtensionPose : Pose :=
  ⟨⟨4/10, 6/10, 5/10⟩, ⟨8/10, 85/100, 75/100⟩, ⟨0, 0, 0⟩⟩

/-- The `indexPinkySpan` pose. -/
def indexPinkySpanPose : Pose :=
  ⟨⟨5/10, 4/10, 3/10⟩, ⟨0, 0, 0⟩, ⟨0, 0, 0⟩⟩

/-- The `thumbOpposition` pose. -/
def thumbOppositionPose : Pose :=
  ⟨⟨9/10, 3/10, 2/10⟩, ⟨2/10, 25/100, 15/100⟩, ⟨25/100, 3/10, 2/10⟩⟩

/-- The `thumbPinkyPinch` pose. -/
def thumbPinkyPinchPose : Pose :=
  ⟨⟨1, 75/100, 6/10⟩, ⟨25/100, 3/10, 2/10⟩, ⟨7/10, 75/100, 6/10⟩⟩

/-- The `threeFingerPinch` pose. -/
def threeFingerPinchPose : Pose :=
  ⟨⟨9/10, 7/10, 55/100⟩, ⟨6/10, 65/100, 5/10⟩, ⟨65/100, 7/10, 55/100⟩⟩

/-- The `indexHook` pose. -/
def indexHookPose : Pose :=
  ⟨⟨2/10, 2/10, 15/100⟩, ⟨1/10, 9/10, 85/100⟩, ⟨25/100, 3/10, 2/10⟩⟩

/-- The `pinkyHook` pose. -/
def pinkyHookPose : Pose :=
  ⟨⟨2/10, 2/10, 15/100⟩, ⟨2/10, 25/100, 15/100⟩, ⟨1/10, 9/10, 85/100⟩⟩

/-- The `HAND_POSES` library, keyed by name in source order. -/
def HAND_POSES : List (String × Pose) :=
  [("neutral", neutralPose), ("open", openPose), ("closedGrasp", closedGraspPose),
   ("thumbIndexPinch", thumbIndexPinchPose), ("indexExtension", indexExtensionPose),
   ("pinkyExtension", pinkyExtensionPose), ("indexPinkySpan", indexPinkySpanPose),
   ("thumbOpposition", thumbOppositionPose), ("thumbPinkyPinch", thumbPinkyPinchPose),
   ("threeFingerPinch", threeFingerPinchPose), ("indexHook", indexHookPose),
   ("pinkyHook", pinkyHookPose)]

/-- `getPose = (poseName) => HAND_POSES[poseName] || HAND_POSES.neutral`.
The argument is an `Option String` so that a JS `undefined` argument (property
lookup yielding `undefined`, hence the fallback) is representable as `none`. -/
def getPose (poseName : Option String) : Pose :=
  (poseName.bind (fun n => HAND_POSES.lookup n)).getD neutralPose

/-! ### Sample-logger condition (part_000 lines 159-184, PeriodicMotionMode 276-289)

The animate loops test `newTime % logInterval < deltaTime` where
`logInterval = 1000 / logFrameRate`.  JS `%` is a truncated-division
remainder, modelled by `jsMod`. -/

/-- Truncation toward zero, as used by the JS `%` operator. -/
def jsTrunc (x : ℚ) : ℤ :=
  if 0 ≤ x then ⌊x⌋ else ⌈x⌉

/-- The JS remainder `x % y` (for `y ≠ 0`; the engine always uses a positive
`logInterval`). -/
def jsMod (x y : ℚ) : ℚ := x - y * jsTrunc (x / y)

/-- The logging test `newTime % logInterval < deltaTime` from the animate
loops. -/
def shouldLog (newTime deltaTime logInterval : ℚ) : Bool :=
  decide (jsMod newTime logInterval < deltaTime)

/-! ### Theorems for claims C6, C7, C9, C4 -/

theorem smoothT_zero (ty : InterpolationType) : smoothT ty 0 = 0 := by
  cases ty <;> simp [smoothT, easeInOut, minimumJerk]

theorem smoothT_one (ty : InterpolationType) : smoothT ty 1 = 1 := by
  cases ty <;> simp [smoothT, easeInOut, minimumJerk] <;> norm_num

/-- C6: for every pair of full poses and each of the three interpolation
curves, `interpolatePoses(A, B, 0, curve) = A` and
`interpolatePoses(A, B, 1, curve) = B`. -/
theorem interpolatePoses_endpoints (ty : InterpolationType) (p1 p2 : Pose) :
    interpolatePoses p1 p2 0 ty = p1 ∧ interpolatePoses p1 p2 1 ty = p2 := by
  constructor <;>
      ext <;>
      simp [interpolatePoses, interpolateThumb, interpolateFinger, lerp,
        smoothT_zero, smoothT_one]

/-- C7: `getPose` is total with the `neutral` fallback: an input that is a key
of the library returns that named pose; any other input (unknown name, or the
JS `undefined`, modelled as `none`) returns the library's neutral pose. -/
theorem getPose_total_with_fallback :
    (∀ n p, HAND_POSES.lookup n = some p → getPose (some n) = p) ∧
    (∀ n, HAND_POSES.lookup n = none → getPose (some n) = neutralPose) ∧
    getPose none = neutralPose := by
  refine ⟨fun n p h => ?_, fun n h => ?_, rfl⟩ <;> simp [getPose, h]

/-- Witness for C7 at concrete inputs: a known key, an unknown key, and the
undefined input. -/
theorem getPose_total_with_fallback_w :
    getPose (some "open") = openPose ∧
    getPose (some "notAPoseName") = neutralPose ∧
    getPose none = neutralPose :=
  ⟨getPose_total_with_fallback.1 "open" openPose (by rfl),
   getPose_total_with_fallback.2.1 "notAPoseName" (by rfl),
   getPose_total_with_fallback.2.2⟩

theorem lerp_unit_bounds {a b s : ℚ} (ha0 : 0 ≤ a) (ha1 : a ≤ 1)
    (hb0 : 0 ≤ b) (hb1 : b ≤ 1) (hs0 : 0 ≤ s) (hs1 : s ≤ 1) :
    0 ≤ lerp a b s ∧ lerp a b s ≤ 1 := by
  unfold lerp
  constructor
  · nlinarith [mul_nonneg ha0 (sub_nonneg.mpr hs1), mul_nonneg hb0 hs0]
  · nlinarith [mul_nonneg (sub_nonneg.mpr ha1) (sub_nonneg.mpr hs1),
      mul_nonneg (sub_nonneg.mpr hb1) hs0]

theorem smoothT_unit_bounds (ty : InterpolationType) {t : ℚ}
    (h0 : 0 ≤ t) (h1 : t ≤ 1) : 0 ≤ smoothT ty t ∧ smoothT ty t ≤ 1 := by
  cases ty with
  | linear => exact ⟨h0, h1⟩
  | easeInOut =>
    simp only [smoothT, easeInOut]
    rcases lt_or_le t (1/2) with h | h
    · rw [if_pos h]
      constructor
      · nlinarith [mul_nonneg h0 h0]
      · nlinarith [mul_nonneg h0 (by linarith : (0:ℚ) ≤ 1/2 - t)]
    · rw [if_neg (not_lt.mpr h)]
      constructor
      · nlinarith [mul_nonneg (by linarith : (0:ℚ) ≤ -2*t + 2)
          (by linarith : (0:ℚ) ≤ 1 - (-2*t + 2))]
      · nlinarith [sq_nonneg (-2*t + 2)]
  | minimumJerk =>
    simp only [smoothT, minimumJerk]
    have ht1 : (0:ℚ) ≤ 1 - t := by linarith
    have hq : (0:ℚ) ≤ 6*t*t + 3*t + 1 := by nlinarith [mul_nonneg h0 h0]
    constructor
    · nlinarith [pow_nonneg h0 3, mul_nonneg (mul_nonneg (mul_nonneg h0 h0) h0)
        (sq_nonneg (4*t - 5))]
    · nlinarith [mul_nonneg (mul_nonneg (mul_nonneg ht1 ht1) ht1) hq]

/-- All nine joint angles of a pose lie in `[0,1]`. -/
def poseIn01 (p : Pose) : Prop :=
  (0 ≤ p.thumb.cmc ∧ p.thumb.cmc ≤ 1) ∧ (0 ≤ p.thumb.mcp ∧ p.thumb.mcp ≤ 1) ∧
  (0 ≤ p.thumb.ip ∧ p.thumb.ip ≤ 1) ∧
  (0 ≤ p.index.mcp ∧ p.index.mcp ≤ 1) ∧ (0 ≤ p.index.pip ∧ p.index.pip ≤ 1) ∧
  (0 ≤ p.index.dip ∧ p.index.dip ≤ 1) ∧
  (0 ≤ p.pinky.mcp ∧ p.pinky.mcp ≤ 1) ∧ (0 ≤ p.pinky.pip ∧ p.pinky.pip ≤ 1) ∧
  (0 ≤ p.pinky.dip ∧ p.pinky.dip ≤ 1)

instance (p : Pose) : Decidable (poseIn01 p) := by
  unfold poseIn01; infer_instance

/-- C9: each of the three curves maps `[0,1]` into `[0,1]`, and consequently
interpolating two poses whose joint angles all lie in `[0,1]` at any
`t ∈ [0,1]` yields a pose whose joint angles all lie in `[0,1]`. -/
theorem interpolation_preserves_unit_interval (ty : InterpolationType) (t : ℚ)
    (h0 : 0 ≤ t) (h1 : t ≤ 1) :
    (0 ≤ smoothT ty t ∧ smoothT ty t ≤ 1) ∧
    ∀ p1 p2 : Pose, poseIn01 p1 → poseIn01 p2 →
      poseIn01 (interpolatePoses p1 p2 t ty) := by
  obtain ⟨hs0, hs1⟩ := smoothT_unit_bounds ty h0 h1
  refine ⟨⟨hs0, hs1⟩, fun p1 p2 hp1 hp2 => ?_⟩
  obtain ⟨⟨a1, a2⟩, ⟨b1, b2⟩, ⟨c1, c2⟩, ⟨d1, d2⟩, ⟨e1, e2⟩, ⟨f1, f2⟩,
    ⟨g1, g2⟩, ⟨i1, i2⟩, ⟨j1, j2⟩⟩ := hp1
  obtain ⟨⟨a1', a2'⟩, ⟨b1', b2'⟩, ⟨c1', c2'⟩, ⟨d1', d2'⟩, ⟨e1', e2'⟩, ⟨f1', f2'⟩,
    ⟨g1', g2'⟩, ⟨i1', i2'⟩, ⟨j1', j2'⟩⟩ := hp2
  exact ⟨lerp_unit_bounds a1 a2 a1' a2' hs0 hs1, lerp_unit_bounds b1 b2 b1' b2' hs0 hs1,
    lerp_unit_bounds c1 c2 c1' c2' hs0 hs1, lerp_unit_bounds d1 d2 d1' d2' hs0 hs1,
    lerp_unit_bounds e1 e2 e1' e2' hs0 hs1, lerp_unit_bounds f1 f2 f1' f2' hs0 hs1,
    lerp_unit_bounds g1 g2 g1' g2' hs0 hs1, lerp_unit_bounds i1 i2 i1' i2' hs0 hs1,
    lerp_unit_bounds j1 j2 j1' j2' hs0 hs1⟩

/-- Witness for C9 at `t = 1/2` with the minimum-jerk curve and two library
poses. -/
theorem interpolation_preserves_unit_interval_w :
    (0 ≤ smoothT .minimumJerk (1/2) ∧ smoothT .minimumJerk (1/2) ≤ 1) ∧
    poseIn01 (interpolatePoses neutralPose openPose (1/2) .minimumJerk) := by
  have h := interpolation_preserves_unit_interval .minimumJerk (1/2)
    (by norm_num) (by norm_num)
  exact ⟨h.1, h.2 neutralPose openPose
    (by norm_num [poseIn01, neutralPose]) (by norm_num [poseIn01, openPose])⟩

/-- C4: for `logInterval > 0`, `deltaTime > 0`, and `timeInPhase` obtained by
adding `deltaTime` to a previous nonnegative accumulator value, the
implemented test `timeInPhase % logInterval < deltaTime` holds iff
`floor(timeInPhase / logInterval)` differs from
`floor((timeInPhase - deltaTime) / logInterval)`. -/
theorem shouldLog_iff_floor_change (logInterval deltaTime prev : ℚ)
    (hL : 0 < logInterval) (hd : 0 < deltaTime) (hprev : 0 ≤ prev) :
    shouldLog (prev + deltaTime) deltaTime logInterval = true ↔
      ⌊(prev + deltaTime) / logInterval⌋ ≠ ⌊prev / logInterval⌋ := by
  have hT : 0 ≤ prev + deltaTime := by linarith
  have htr : jsTrunc ((prev + deltaTime) / logInterval) =
      ⌊(prev + deltaTime) / logInterval⌋ := by
    unfold jsTrunc
    rw [if_pos (div_nonneg hT hL.le)]
  have hmono : ⌊prev / logInterval⌋ ≤ ⌊(prev + deltaTime) / logInterval⌋ := by
    apply Int.floor_le_floor
    gcongr
    linarith
  simp only [shouldLog, decide_eq_true_eq, jsMod, htr]
  constructor
  · intro h
    have h3 : prev / logInterval < (⌊(prev + deltaTime) / logInterval⌋ : ℚ) := by
      rw [div_lt_iff₀ hL, mul_comm]
      linarith
    have h4 : ⌊prev / logInterval⌋ < ⌊(prev + deltaTime) / logInterval⌋ :=
      Int.floor_lt.mpr h3
    omega
  · intro hne
    have h4 : ⌊prev / logInterval⌋ < ⌊(prev + deltaTime) / logInterval⌋ :=
      lt_of_le_of_ne hmono (Ne.symm hne)
    have h3 : prev / logInterval < (⌊(prev + deltaTime) / logInterval⌋ : ℚ) :=
      Int.floor_lt.mp h4
    rw [div_lt_iff₀ hL, mul_comm] at h3
    linarith

/-! ### Balanced block sequence generator (src/unnamed/part_002, lines 127-165)

The trial-based mode builds `sequence` by repeatedly appending the enabled
pool shuffled (`shuffle(pool)`), swapping the first block entry with the entry
at index `1 + Math.floor(Math.random() * (block.length - 1))` when the block
boundary would repeat the previous entry, and finally truncating with
`slice(0, numTargets)`.  JS arrays may hold `undefined`, so entries are
modelled as `Option String` (with `none` for `undefined`); the stream of
shuffled blocks and of the per-block random samples is passed in as
`choices`. -/

/-- JS array read `l[i]`: out of bounds yields `undefined` (`none`). -/
def jsGetIdx (l : List (Option String)) (i : ℕ) : Option String :=
  (l.get? i).getD none

/-- JS array write `l[i] = v`: writing at or past `l.length` grows the array,
filling any gap with `undefined`. -/
def jsSetIdx (l : List (Option String)) (i : ℕ) (v : Option String) :
    List (Option String) :=
  if i < l.length then l.set i v
  else l ++ List.replicate (i - l.length) none ++ [v]

/-- The destructuring swap `[l[i], l[j]] = [l[j], l[i]]`: the right-hand pair
is read first, then index `i` is written, then index `j`. -/
def jsSwap (l : List (Option String)) (i j : ℕ) : List (Option String) :=
  jsSetIdx (jsSetIdx l i (jsGetIdx l j)) j (jsGetIdx l i)

/-- The boundary repair: when the sequence is nonempty and the incoming
shuffled block starts with the previous entry, swap `block[0]` with
`block[1 + r]`, where `r` models `Math.floor(Math.random() * (block.length - 1))`. -/
def repairBlock (seq : List (Option String)) (block : List String) (r : ℕ) :
    List (Option String) :=
  let b := block.map some
  if 0 < seq.length ∧ jsGetIdx b 0 = jsGetIdx seq (seq.length - 1) then
    jsSwap b 0 (1 + r)
  else b

/-- The `while (sequence.length < numTargets)` loop, consuming one shuffled
block per iteration from the stream of random choices. -/
def buildSeqAux (n : ℕ) : List (Option String) → List (List String × ℕ) → List (Option String)
  | seq, [] => seq
  | seq, (block, r) :: rest =>
    if seq.length < n then buildSeqAux n (seq ++ repairBlock seq block r) rest else seq

/-- The generated sequence: the block loop followed by `slice(0, numTargets)`. -/
def balancedSequence (n : ℕ) (choices : List (List String × ℕ)) : List (Option String) :=
  (buildSeqAux n [] choices).take n

/-- A valid randomness model: every supplied block is a shuffle (permutation)
of the pool, and every sampled `r` satisfies `r < max 1 (block.length - 1)`,
exactly the range of `Math.floor(Math.random() * (block.length - 1))`. -/
def validChoices (pool : List String) (choices : List (List String × ℕ)) : Prop :=
  ∀ br ∈ choices, br.1.Perm pool ∧ br.2 < max 1 (br.1.length - 1)

theorem count_set_add (t v : Option String) :
    ∀ (l : List (Option String)) (m : ℕ) (h : m < l.length),
      List.count t (l.set m v) + List.count t [l.get ⟨m, h⟩] =
        List.count t l + List.count t [v]
  | a :: tl, 0, _ => by
    simp only [List.set_cons_zero, List.get, List.count_cons, List.count_nil]
    omega
  | a :: tl, m + 1, h => by
    have ih := count_set_add t v tl m (by simpa using h)
    simp only [List.set_cons_succ, List.get, List.count_cons, List.count_nil] at ih ⊢
    omega

theorem jsSwap_head_cons (a : Option String) (tl : List (Option String)) (m : ℕ)
    (hm : m < tl.length) :
    jsSwap (a :: tl) 0 (m + 1) = tl.get ⟨m, hm⟩ :: tl.set m a := by
  have h1 : jsGetIdx (a :: tl) (m + 1) = tl.get ⟨m, hm⟩ := by
    simp [jsGetIdx, List.getElem?_eq_getElem, hm]
  have h0 : jsGetIdx (a :: tl) 0 = a := by simp [jsGetIdx]
  unfold jsSwap
  rw [h1, h0]
  have hs0 : jsSetIdx (a :: tl) 0 (tl.get ⟨m, hm⟩) = tl.get ⟨m, hm⟩ :: tl := by
    simp [jsSetIdx]
  rw [hs0]
  have hs1 : jsSetIdx (tl.get ⟨m, hm⟩ :: tl) (m + 1) a =
      tl.get ⟨m, hm⟩ :: tl.set m a := by
    simp [jsSetIdx, Nat.succ_lt_succ hm]
  rw [hs1]

theorem count_jsSwap (a : Option String) (tl : List (Option String)) (m : ℕ)
    (hm : m < tl.length) (t : Option String) :
    List.count t (jsSwap (a :: tl) 0 (m + 1)) = List.count t (a :: tl) := by
  rw [jsSwap_head_cons a tl m hm]
  have key := count_set_add t a tl m hm
  simp only [List.count_cons, List.count_nil, Nat.zero_add] at key ⊢
  omega

theorem length_jsSwap_cons (a : Option String) (tl : List (Option String)) (m : ℕ)
    (hm : m < tl.length) :
    (jsSwap (a :: tl) 0 (m + 1)).length = (a :: tl).length := by
  rw [jsSwap_head_cons a tl m hm]
  simp

theorem repairBlock_count (pool block : List String) (r : ℕ)
    (seq : List (Option String)) (hperm : block.Perm pool) (hk2 : 2 ≤ pool.length)
    (hr : r < max 1 (block.length - 1)) :
    (∀ t, List.count t (repairBlock seq block r) = List.count t (pool.map some)) ∧
    (repairBlock seq block r).length = pool.length := by
  have hlen : block.length = pool.length := hperm.length_eq
  have hmap : (block.map some).Perm (pool.map some) := hperm.map some
  have hcnt : ∀ t, List.count t (block.map some) = List.count t (pool.map some) := by
    intro t
    rw [List.count_eq_countP, List.count_eq_countP]
    exact hmap.countP_eq _
  simp only [repairBlock]
  split
  · obtain ⟨x, tlb, hb⟩ : ∃ x tlb, block.map some = x :: tlb := by
      cases hcase : block.map some with
      | nil =>
        exfalso
        have : block.length = 0 := by simpa using congrArg List.length hcase
        omega
      | cons x tlb => exact ⟨x, tlb, rfl⟩
    have htl : tlb.length = pool.length - 1 := by
      have := congrArg List.length hb
      simp at this
      omega
    have hrm : r < tlb.length := by
      have hbl : block.length = pool.length := hlen
      rw [htl]
      omega
    rw [hb, Nat.add_comm 1 r]
    constructor
    · intro t
      rw [count_jsSwap x tlb r hrm t, ← hb, hcnt]
    · rw [length_jsSwap_cons x tlb r hrm, ← hb]
      simpa using hlen
  · exact ⟨hcnt, by simpa using hlen⟩

theorem buildSeqAux_decomp (pool : List String) (n : ℕ) (hk2 : 2 ≤ pool.length)
    (choices : List (List String × ℕ)) :
    ∀ seq : List (Option String), validChoices pool choices →
      ∃ bs : List (List (Option String)),
        buildSeqAux n seq choices = seq ++ bs.flatten ∧
        ∀ b ∈ bs, b.length = pool.length ∧
          ∀ t, List.count t b = List.count t (pool.map some) := by
  induction choices with
  | nil => exact fun seq _ => ⟨[], by simp [buildSeqAux], by simp⟩
  | cons br rest ih =>
    intro seq hv
    obtain ⟨block, r⟩ := br
    have hbr := hv (block, r) (List.mem_cons_self _ _)
    have hrest : validChoices pool rest := fun b h => hv b (List.mem_cons_of_mem _ h)
    by_cases hlt : seq.length < n
    · obtain ⟨bs, heq, hprops⟩ := ih (seq ++ repairBlock seq block r) hrest
      refine ⟨repairBlock seq block r :: bs, ?_, ?_⟩
      · rw [buildSeqAux, if_pos hlt, heq]
        simp
      · intro b hb
        rcases List.mem_cons.mp hb with hb | hb
        · subst hb
          have := repairBlock_count pool block r seq hbr.1 hk2 hbr.2
          exact ⟨this.2, this.1⟩
        · exact hprops b hb
    · exact ⟨[], by rw [buildSeqAux, if_neg hlt]; simp, by simp⟩

theorem buildSeqAux_length_ge (pool : List String) (n : ℕ) (hk2 : 2 ≤ pool.length)
    (choices : List (List String × ℕ)) :
    ∀ seq : List (Option String), validChoices pool choices →
      n ≤ seq.length + pool.length * choices.length →
      n ≤ (buildSeqAux n seq choices).length := by
  induction choices with
  | nil =>
    intro seq _ hsup
    rw [buildSeqAux]
    simpa using hsup
  | cons br rest ih =>
    intro seq hv hsup
    obtain ⟨block, r⟩ := br
    have hbr := hv (block, r) (List.mem_cons_self _ _)
    have hrest : validChoices pool rest := fun b h => hv b (List.mem_cons_of_mem _ h)
    by_cases hlt : seq.length < n
    · rw [buildSeqAux, if_pos hlt]
      apply ih (seq ++ repairBlock seq block r) hrest
      have hrb : (repairBlock seq block r).length = pool.length :=
        (repairBlock_count pool block r seq hbr.1 hk2 hbr.2).2
      have hmul : pool.length * (rest.length + 1) = pool.length * rest.length + pool.length := by
        ring
      simp only [List.length_append, hrb]
      simp only [List.length_cons, hmul] at hsup
      omega
    · rw [buildSeqAux, if_neg hlt]
      omega

theorem flatten_length_uniform (k : ℕ) :
    ∀ bs : List (List (Option String)), (∀ b ∈ bs, b.length = k) →
      bs.flatten.length = k * bs.length := by
  intro bs
  induction bs with
  | nil => simp
  | cons b rest ih =>
    intro h
    have hb := h b (List.mem_cons_self _ _)
    have hrest := ih (fun b' h' => h b' (List.mem_cons_of_mem _ h'))
    simp only [List.flatten_cons, List.length_append, hb, hrest, List.length_cons]
    ring

theorem count_take_flatten (k : ℕ) (hk : 0 < k) (t : Option String) :
    ∀ (bs : List (List (Option String))) (n : ℕ),
      (∀ b ∈ bs, b.length = k ∧ List.count t b = 1) →
      n ≤ k * bs.length →
      List.count t (bs.flatten.take n) = n / k ∨
        List.count t (bs.flatten.take n) = (n + k - 1) / k := by
  intro bs
  induction bs with
  | nil =>
    intro n _ hn
    simp only [List.length_nil, Nat.mul_zero, Nat.le_zero] at hn
    subst hn
    left
    simp
  | cons b rest ih =>
    intro n hprops hn
    have hb := hprops b (List.mem_cons_self _ _)
    have hrest := fun b' h => hprops b' (List.mem_cons_of_mem _ h)
    rw [List.flatten_cons, List.take_append_eq_append_take, List.count_append, hb.1]
    by_cases hcase : n ≤ k
    · have hz : n - k = 0 := by omega
      rw [hz]
      simp only [List.take_zero, List.count_nil, Nat.add_zero]
      rcases Nat.eq_or_lt_of_le hcase with heq | hlt
      · subst heq
        rw [List.take_of_length_le (le_of_eq hb.1), hb.2]
        left
        rw [Nat.div_self hk]
      · have hle : List.count t (b.take n) ≤ 1 := hb.2 ▸ (List.take_sublist n b).count_le t
        rcases Nat.le_one_iff_eq_zero_or_eq_one.mp hle with h0 | h1
        · left
          rw [h0, Nat.div_eq_of_lt hlt]
        · right
          have hn0 : n ≠ 0 := by
            rintro rfl
            simp at h1
          have e1 : n + k - 1 = (n - 1) + k := by omega
          have e2 : (n - 1) / k = 0 := Nat.div_eq_of_lt (by omega)
          rw [h1, e1, Nat.add_div_right _ hk, e2]
    · have hble : b.length ≤ n := by omega
      rw [List.take_of_length_le hble, hb.2]
      have hexp : k * (b :: rest).length = k * rest.length + k := by
        rw [List.length_cons]
        ring
      have hn' : n ≤ k * rest.length + k := hexp ▸ hn
      have hnk : n - k ≤ k * rest.length := Nat.sub_le_iff_le_add.mpr hn'
      have ediv : n / k = (n - k) / k + 1 := by
        conv_lhs => rw [show n = (n - k) + k by omega]
        rw [Nat.add_div_right _ hk]
      rcases ih (n - k) hrest hnk with h | h
      · left
        rw [h, ediv, Nat.add_comm]
      · right
        have e4 : n - k + k - 1 = n - 1 := by omega
        have e5 : n + k - 1 = (n - 1) + k := by omega
        rw [h, e4, e5, Nat.add_div_right _ hk, Nat.add_comm]

theorem count_some_map_eq_one {x : String} {pool : List String}
    (hnd : pool.Nodup) (hx : x ∈ pool) :
    List.count (some x) (pool.map some) = 1 := by
  induction pool with
  | nil => cases hx
  | cons a tl ih =>
    rw [List.map_cons, List.count_cons]
    rcases List.mem_cons.mp hx with heq | htl
    · subst heq
      have hnotin : (some x : Option String) ∉ tl.map some := by
        simp only [List.mem_map, Option.some.injEq, not_exists, not_and]
        intro y hy he
        exact (List.nodup_cons.mp hnd).1 (he ▸ hy)
      rw [List.count_eq_zero.mpr hnotin]
      simp
    · have hne : a ≠ x := by
        rintro rfl
        exact (List.nodup_cons.mp hnd).1 htl
      rw [ih (List.nodup_cons.mp hnd).2 htl]
      simp [hne]

/-- C5 counterexample: for the one-element pool `["open"]` and requested
length `n = 2`, the boundary-repair swap (forced to fire with swap index 1,
one past the end of the block) makes the generated sequence `[open, undefined]`,
so the pool element "open" appears once, which is neither `2 / 1 = 2` nor
`ceil(2 / 1) = 2`; the claimed frequency guarantee fails as stated. -/
theorem balancedSequence_singleton_freq_cex :
    balancedSequence 2 [(["open"], 0), (["open"], 0)] = [some "open", none] ∧
    validChoices ["open"] [(["open"], 0), (["open"], 0)] ∧
    List.count (some "open") (balancedSequence 2 [(["open"], 0), (["open"], 0)]) = 1 ∧
    ¬(1 = 2 / (["open"] : List String).length ∨
      1 = (2 + (["open"] : List String).length - 1) / (["open"] : List String).length) := by
  refine ⟨by decide, ?_, by decide, by decide⟩
  intro br hbr
  rcases List.mem_cons.mp hbr with h | h
  · subst h; exact ⟨by decide, by decide⟩
  · rcases List.mem_cons.mp h with h | h
    · subst h; exact ⟨by decide, by decide⟩
    · cases h

/-- C5 (amended): for every nodup enabled pool of size `k ≥ 2`, every valid
randomness stream (each block a shuffle of the pool, each swap sample in the
range of `Math.floor(Math.random() * (k - 1))`), and enough supplied blocks
to cover the requested length `n`, the generator produces a sequence of
length exactly `n` in which every pool element appears either `n / k`
(floor) or `(n + k - 1) / k` (ceiling) times, whether or not the
boundary-repair swap fires.  (For `k = 1` the swap writes out of bounds and
the guarantee fails, see the counterexample.) -/
theorem balancedSequence_balanced (pool : List String) (n : ℕ)
    (choices : List (List String × ℕ)) (hnd : pool.Nodup) (hk2 : 2 ≤ pool.length)
    (hv : validChoices pool choices) (hsupply : n ≤ pool.length * choices.length) :
    (balancedSequence n choices).length = n ∧
    ∀ x ∈ pool,
      List.count (some x) (balancedSequence n choices) = n / pool.length ∨
      List.count (some x) (balancedSequence n choices) =
        (n + pool.length - 1) / pool.length := by
  obtain ⟨bs, heq, hprops⟩ := buildSeqAux_decomp pool n hk2 choices [] hv
  have hres : buildSeqAux n [] choices = bs.flatten := by simpa using heq
  have hflen : bs.flatten.length = pool.length * bs.length :=
    flatten_length_uniform pool.length bs (fun b hb => (hprops b hb).1)
  have hge : n ≤ (buildSeqAux n [] choices).length :=
    buildSeqAux_length_ge pool n hk2 choices [] hv (by simpa using hsupply)
  have hn : n ≤ pool.length * bs.length := by
    rw [hres, hflen] at hge
    exact hge
  constructor
  · rw [balancedSequence, hres, List.length_take]
    rw [hflen]
    omega
  · intro x hx
    have hcnt1 : ∀ b ∈ bs, b.length = pool.length ∧ List.count (some x) b = 1 := by
      intro b hb
      refine ⟨(hprops b hb).1, ?_⟩
      rw [(hprops b hb).2 (some x), count_some_map_eq_one hnd hx]
    have := count_take_flatten pool.length (by omega) (some x) bs n hcnt1 hn
    rw [balancedSequence, hres]
    exact this

/-- Witness for C5 (amended) at the two-element pool `["open","closedGrasp"]`,
`n = 3`, and two supplied shuffles (the second fires the repair swap). -/
theorem balancedSequence_balanced_w :
    (balancedSequence 3
      [(["open", "closedGrasp"], 0), (["closedGrasp", "open"], 0)]).length = 3 ∧
    (List.count (some "open")
        (balancedSequence 3
          [(["open", "closedGrasp"], 0), (["closedGrasp", "open"], 0)]) = 3 / 2 ∨
      List.count (some "open")
        (balancedSequence 3
          [(["open", "closedGrasp"], 0), (["closedGrasp", "open"], 0)]) = (3 + 2 - 1) / 2) := by
  have hv : validChoices ["open", "closedGrasp"]
      [(["open", "closedGrasp"], 0), (["closedGrasp", "open"], 0)] := by
    intro br hbr
    rcases List.mem_cons.mp hbr with h | h
    · subst h; exact ⟨by decide, by decide⟩
    · rcases List.mem_cons.mp h with h | h
      · subst h; exact ⟨by decide, by decide⟩
      · cases h
    
  have h := balancedSequence_balanced ["open", "closedGrasp"] 3
    [(["open", "closedGrasp"], 0), (["closedGrasp", "open"], 0)]
    (by decide) (by decide) hv (by decide)
  exact ⟨h.1, h.2 "open" (by decide)⟩

/-- C10 counterexample: with the one-element pool `["open"]` and `n = 2`, the
repair swap fires with swap index 1 (one past the end of the one-element
block), JS assignment grows the block to `[undefined, "open"]`, and the
generated sequence's second entry is `undefined` (`none`), not a pool
element. -/
theorem balancedSequence_singleton_undefined_cex :
    balancedSequence 2 [(["open"], 0), (["open"], 0)] = [some "open", none] ∧
    (none : Option String) ∈ balancedSequence 2 [(["open"], 0), (["open"], 0)] ∧
    ∀ x ∈ (["open"] : List String), (none : Option String) ≠ some x := by
  refine ⟨by decide, by decide, by decide⟩

/-- C10 (amended): for every pool of size `k ≥ 2` and valid randomness
stream, every entry of the generated sequence is a defined pool element
(in particular never `undefined`); for `k = 1` this fails whenever the
repair swap fires, see the counterexample. -/
theorem balancedSequence_entries_in_pool (pool : List String) (n : ℕ)
    (choices : List (List String × ℕ)) (hk2 : 2 ≤ pool.length)
    (hv : validChoices pool choices) :
    ∀ y ∈ balancedSequence n choices, ∃ x ∈ pool, y = some x := by
  obtain ⟨bs, heq, hprops⟩ := buildSeqAux_decomp pool n hk2 choices [] hv
  have hres : buildSeqAux n [] choices = bs.flatten := by simpa using heq
  intro y hy
  rw [balancedSequence, hres] at hy
  have hy2 : y ∈ bs.flatten := List.take_subset n bs.flatten hy
  obtain ⟨b, hb, hyb⟩ := List.mem_flatten.mp hy2
  have hpos : 0 < List.count y b := List.count_pos_iff.mpr hyb
  rw [(hprops b hb).2 y] at hpos
  have hmem : y ∈ pool.map some := List.count_pos_iff.mp hpos
  obtain ⟨x, hx, hxy⟩ := List.mem_map.mp hmem
  exact ⟨x, hx, hxy.symm⟩

/-- Witness for C10 (amended): the first entry of the concrete two-element
pool run is a pool element. -/
theorem balancedSequence_entries_in_pool_w :
    ∃ x ∈ (["open", "closedGrasp"] : List String),
      (some "open" : Option String) = some x := by
  have hv : validChoices ["open", "closedGrasp"]
      [(["open", "closedGrasp"], 0), (["closedGrasp", "open"], 0)] := by
    intro br hbr
    rcases List.mem_cons.mp hbr with h | h
    · subst h; exact ⟨by decide, by decide⟩
    · rcases List.mem_cons.mp h with h | h
      · subst h; exact ⟨by decide, by decide⟩
      · cases h
    
  exact balancedSequence_entries_in_pool ["open", "closedGrasp"] 3
    [(["open", "closedGrasp"], 0), (["closedGrasp", "open"], 0)]
    (by decide) hv (some "open") (by decide)

/-- Witness for C4 at `logInterval = 1000/30`, `deltaTime = 16`,
previous accumulator `20`. -/
theorem shouldLog_iff_floor_change_w :
    shouldLog ((20:ℚ) + 16) 16 (1000/30) = true ↔
      ⌊((20:ℚ) + 16) / (1000/30)⌋ ≠ ⌊(20:ℚ) / (1000/30)⌋ :=
  shouldLog_iff_floor_change (1000/30) 16 20 (by norm_num) (by norm_num) (by norm_num)

/-! ### Trial-based phase state machine (src/unnamed/part_002, `animate`)

The `animate` callback reads the refs, adds `deltaTime` to `timeInPhase`,
recomputes the displayed pose for the current phase, and advances along
`PHASE_ORDER = [rest, preparation, execution, returnCue]` when the phase
duration is reached, discarding overshoot; after the last trial's returnCue it
calls `completeSession()` (cancelling the frame loop, so no further ticks are
delivered — modelled by the absorbing `complete` flag).  The timestamp-to-delta
conversion of the driver is shared with the continuous mode; this machine is
driven directly by `deltaTime`. -/

inductive TPhase
  | rest
  | preparation
  | execution
  | returnCue
deriving DecidableEq

/-- The per-session settings and the generated pose sequence. -/
structure TrialCfg where
  preparationDuration : ℚ
  executionDuration : ℚ
  returnCueDuration : ℚ
  restDuration : ℚ
  interpolationType : InterpolationType
  poseSequence : List String

/-- `getPhaseDuration` from part_002. -/
def phaseDuration (cfg : TrialCfg) : TPhase → ℚ
  | .preparation => cfg.preparationDuration
  | .execution => cfg.executionDuration
  | .returnCue => cfg.returnCueDuration
  | .rest => cfg.restDuration

/-- The mutable refs of the trial-based animate loop. -/
structure TrialState where
  phase : TPhase
  timeInPhase : ℚ
  poseIndex : ℕ
  current : Pose
  target : Pose
  complete : Bool
deriving DecidableEq

/-- One `animate` callback of the trial-based mode, applied to a computed
`deltaTime`. -/
def stepDelta (cfg : TrialCfg) (s : TrialState) (d : ℚ) : TrialState :=
  if s.complete then s else
  let newTime := s.timeInPhase + d
  let dur := phaseDuration cfg s.phase
  let progress := min (newTime / dur) 1
  let current :=
    match s.phase with
    | .preparation =>
        interpolatePoses (getPose (some "neutral")) s.target progress cfg.interpolationType
    | .execution => s.target
    | .returnCue =>
        interpolatePoses s.target (getPose (some "neutral")) progress cfg.interpolationType
    | .rest => getPose (some "neutral")
  if dur ≤ newTime then
    match s.phase with
    | .rest => { s with phase := .preparation, timeInPhase := 0, current := current }
    | .preparation => { s with phase := .execution, timeInPhase := 0, current := current }
    | .execution => { s with phase := .returnCue, timeInPhase := 0, current := current }
    | .returnCue =>
        if cfg.poseSequence.length ≤ s.poseIndex + 1 then
          { s with timeInPhase := newTime, current := current, complete := true }
        else
          { s with phase := .rest, timeInPhase := 0, current := current,
                   poseIndex := s.poseIndex + 1,
                   target := getPose (cfg.poseSequence.get? (s.poseIndex + 1)) }
  else { s with timeInPhase := newTime, current := current }

/-- Folding a list of delta times through the machine. -/
def runDelta (cfg : TrialCfg) : TrialState → List ℚ → TrialState
  | s, [] => s
  | s, d :: ds => runDelta cfg (stepDelta cfg s d) ds

/-- Whether a tick makes the phase-transition branch fire. -/
def firesAt (cfg : TrialCfg) (s : TrialState) (d : ℚ) : Bool :=
  !s.complete && decide (phaseDuration cfg s.phase ≤ s.timeInPhase + d)

/-- Number of ticks of a run at which the phase-transition branch fires. -/
def countFires (cfg : TrialCfg) : TrialState → List ℚ → ℕ
  | _, [] => 0
  | s, d :: ds =>
    (if firesAt cfg s d then 1 else 0) + countFires cfg (stepDelta cfg s d) ds

/-- Number of ticks of a run at which the machine enters the terminal
complete state. -/
def countCompletions (cfg : TrialCfg) : TrialState → List ℚ → ℕ
  | _, [] => 0
  | s, d :: ds =>
    (if !s.complete && (stepDelta cfg s d).complete then 1 else 0) +
      countCompletions cfg (stepDelta cfg s d) ds

/-- Successor in `PHASE_ORDER` (wrapping to `rest` for the next trial). -/
def nextPhase : TPhase → TPhase
  | .rest => .preparation
  | .preparation => .execution
  | .execution => .returnCue
  | .returnCue => .rest

/-- Index of a phase in `PHASE_ORDER`. -/
def phasePos : TPhase → ℕ
  | .rest => 0
  | .preparation => 1
  | .execution => 2
  | .returnCue => 3

/-- Global position of a state in the session's phase ordering. -/
def globalPos (s : TrialState) : ℕ := 4 * s.poseIndex + phasePos s.phase

/-- The state set up by `startSession` (first target, rest phase). -/
def initTrialState (cfg : TrialCfg) : TrialState :=
  { phase := .rest, timeInPhase := 0, poseIndex := 0,
    current := getPose (some "neutral"),
    target := getPose (cfg.poseSequence.get? 0), complete := false }

/-- All four configured phase durations are positive. -/
def durationsPos (cfg : TrialCfg) : Prop :=
  0 < cfg.preparationDuration ∧ 0 < cfg.executionDuration ∧
  0 < cfg.returnCueDuration ∧ 0 < cfg.restDuration

/-- Completing the current phase would terminate the session. -/
def isTerminalPhase (cfg : TrialCfg) (s : TrialState) : Prop :=
  s.phase = .returnCue ∧ cfg.poseSequence.length ≤ s.poseIndex + 1

theorem getPose_neutral : getPose (some "neutral") = neutralPose := rfl

theorem phaseDuration_pos (cfg : TrialCfg) (h : durationsPos cfg) (p : TPhase) :
    0 < phaseDuration cfg p := by
  obtain ⟨h1, h2, h3, h4⟩ := h
  cases p <;> simpa [phaseDuration]

theorem stepDelta_complete (cfg : TrialCfg) (s : TrialState) (d : ℚ)
    (hc : s.complete = true) : stepDelta cfg s d = s := by
  simp [stepDelta, hc]

theorem stepDelta_no_fire (cfg : TrialCfg) (s : TrialState) (d : ℚ)
    (hc : s.complete = false)
    (hlt : s.timeInPhase + d < phaseDuration cfg s.phase) :
    (stepDelta cfg s d).phase = s.phase ∧
    (stepDelta cfg s d).timeInPhase = s.timeInPhase + d ∧
    (stepDelta cfg s d).poseIndex = s.poseIndex ∧
    (stepDelta cfg s d).complete = false := by
  simp only [stepDelta, hc, if_neg (not_le.mpr hlt)]
  cases hp : s.phase <;> simp [hc]

theorem stepDelta_fire (cfg : TrialCfg) (s : TrialState) (d : ℚ)
    (hc : s.complete = false)
    (hge : phaseDuration cfg s.phase ≤ s.timeInPhase + d)
    (hterm : ¬ isTerminalPhase cfg s) :
    (stepDelta cfg s d).phase = nextPhase s.phase ∧
    (stepDelta cfg s d).timeInPhase = 0 ∧
    (stepDelta cfg s d).poseIndex =
      (if s.phase = .returnCue then s.poseIndex + 1 else s.poseIndex) ∧
    (stepDelta cfg s d).complete = false := by
  simp only [stepDelta, hc, if_pos hge]
  cases hp : s.phase with
  | returnCue =>
    have hnt : ¬ cfg.poseSequence.length ≤ s.poseIndex + 1 := by
      intro hle
      exact hterm ⟨hp, hle⟩
    simp [hc, hnt, nextPhase]
  | rest => simp [hc, nextPhase]
  | preparation => simp [hc, nextPhase]
  | execution => simp [hc, nextPhase]

theorem stepDelta_fire_terminal (cfg : TrialCfg) (s : TrialState) (d : ℚ)
    (hc : s.complete = false)
    (hge : phaseDuration cfg s.phase ≤ s.timeInPhase + d)
    (hterm : isTerminalPhase cfg s) :
    (stepDelta cfg s d).complete = true := by
  obtain ⟨hp, hle⟩ := hterm
  simp only [stepDelta, hc, if_pos hge]
  simp [hp, hle]

theorem all_zero_of_sum_zero {ds : List ℚ} (h : ∀ d ∈ ds, 0 ≤ d)
    (hs : ds.sum = 0) : ∀ d ∈ ds, d = 0 := by
  induction ds with
  | nil => simp
  | cons a tl ih =>
    have ha := h a (List.mem_cons_self _ _)
    have htl : ∀ d ∈ tl, 0 ≤ d := fun d hd => h d (List.mem_cons_of_mem _ hd)
    have hsum : 0 ≤ tl.sum := List.sum_nonneg htl
    rw [List.sum_cons] at hs
    have ha0 : a = 0 := by linarith
    have htl0 : tl.sum = 0 := by linarith
    intro d hd
    rcases List.mem_cons.mp hd with rfl | hd
    · exact ha0
    · exact ih htl htl0 d hd

theorem runDelta_complete (cfg : TrialCfg) :
    ∀ (ds : List ℚ) (s : TrialState), s.complete = true →
      runDelta cfg s ds = s ∧ countFires cfg s ds = 0 ∧
      countCompletions cfg s ds = 0 := by
  intro ds
  induction ds with
  | nil => exact fun s _ => ⟨rfl, rfl, rfl⟩
  | cons d rest ih =>
    intro s hc
    have hstep := stepDelta_complete cfg s d hc
    have := ih s hc
    simp only [runDelta, countFires, countCompletions, hstep, firesAt, hc]
    simpa using this

theorem runZeros (cfg : TrialCfg) (hdur : durationsPos cfg) :
    ∀ (ds : List ℚ) (s : TrialState), s.complete = false → s.timeInPhase = 0 →
      (∀ d ∈ ds, d = 0) →
      countFires cfg s ds = 0 ∧ countCompletions cfg s ds = 0 ∧
      (runDelta cfg s ds).phase = s.phase ∧
      (runDelta cfg s ds).timeInPhase = 0 ∧
      (runDelta cfg s ds).poseIndex = s.poseIndex ∧
      (runDelta cfg s ds).complete = false := by
  intro ds
  induction ds with
  | nil => exact fun s _ ht _ => ⟨rfl, rfl, rfl, ht, rfl, by assumption⟩
  | cons d rest ih =>
    intro s hc ht hz
    have hd0 : d = 0 := hz d (List.mem_cons_self _ _)
    have hlt : s.timeInPhase + d < phaseDuration cfg s.phase := by
      rw [ht, hd0]
      simpa using phaseDuration_pos cfg hdur s.phase
    obtain ⟨hp, htip, hidx, hcomp⟩ := stepDelta_no_fire cfg s d hc hlt
    have hfire : firesAt cfg s d = false := by
      simp [firesAt, hc, not_le.mpr hlt]
    have hnc : (!s.complete && (stepDelta cfg s d).complete) = false := by
      simp [hcomp]
    have ihr := ih (stepDelta cfg s d) hcomp
      (by rw [htip, ht, hd0]; ring) (fun x hx => hz x (List.mem_cons_of_mem _ hx))
    refine ⟨?_, ?_, ?_, ?_, ?_, ?_⟩
    · simp only [countFires, hfire, if_false]
      simpa using ihr.1
    · simp only [countCompletions, hnc, if_false]
      simpa using ihr.2.1
    · simp only [runDelta]
      rw [ihr.2.2.1, hp]
    · simp only [runDelta]
      rw [ihr.2.2.2.1]
    · simp only [runDelta]
      rw [ihr.2.2.2.2.1, hidx]
    · simp only [runDelta]
      exact ihr.2.2.2.2.2

theorem runPhase_exact (cfg : TrialCfg) (hdur : durationsPos cfg) :
    ∀ (ds : List ℚ) (s : TrialState), s.complete = false →
      (∀ d ∈ ds, 0 ≤ d) →
      s.timeInPhase + ds.sum = phaseDuration cfg s.phase →
      s.timeInPhase < phaseDuration cfg s.phase →
      ¬ isTerminalPhase cfg s →
      countFires cfg s ds = 1 ∧
      countCompletions cfg s ds = 0 ∧
      (runDelta cfg s ds).phase = nextPhase s.phase ∧
      (runDelta cfg s ds).timeInPhase = 0 ∧
      (runDelta cfg s ds).poseIndex =
        (if s.phase = .returnCue then s.poseIndex + 1 else s.poseIndex) ∧
      (runDelta cfg s ds).complete = false := by
  intro ds
  induction ds with
  | nil =>
    intro s _ _ hsum hlt _
    exfalso
    rw [List.sum_nil, add_zero] at hsum
    exact absurd hsum (ne_of_lt hlt)
  | cons d rest ih =>
    intro s hc hnn hsum hlt hterm
    have hd := hnn d (List.mem_cons_self _ _)
    have hrest_nn : ∀ x ∈ rest, 0 ≤ x := fun x hx => hnn x (List.mem_cons_of_mem _ hx)
    have hrest_sum := List.sum_nonneg hrest_nn
    rw [List.sum_cons] at hsum
    by_cases hfire : phaseDuration cfg s.phase ≤ s.timeInPhase + d
    · have hzero_sum : rest.sum = 0 := by linarith
      have hzeros := all_zero_of_sum_zero hrest_nn hzero_sum
      obtain ⟨hp, htip, hidx, hcomp⟩ := stepDelta_fire cfg s d hc hfire hterm
      have hfb : firesAt cfg s d = true := by simp [firesAt, hc, hfire]
      have hnc : (!s.complete && (stepDelta cfg s d).complete) = false := by
        simp [hcomp]
      have hz := runZeros cfg hdur rest (stepDelta cfg s d) hcomp htip hzeros
      refine ⟨?_, ?_, ?_, ?_, ?_, ?_⟩
      · simp only [countFires, hfb, if_true]
        rw [hz.1]
      · simp only [countCompletions, hnc, if_false]
        simpa using hz.2.1
      · simp only [runDelta]
        rw [hz.2.2.1, hp]
      · simp only [runDelta]
        rw [hz.2.2.2.1]
      · simp only [runDelta]
        rw [hz.2.2.2.2.1, hidx]
      · simp only [runDelta]
        exact hz.2.2.2.2.2
    · push_neg at hfire
      obtain ⟨hp, htip, hidx, hcomp⟩ := stepDelta_no_fire cfg s d hc hfire
      have hfb : firesAt cfg s d = false := by
        simp [firesAt, hc, not_le.mpr hfire]
      have hnc : (!s.complete && (stepDelta cfg s d).complete) = false := by
        simp [hcomp]
      have hterm' : ¬ isTerminalPhase cfg (stepDelta cfg s d) := by
        intro ⟨h1, h2⟩
        exact hterm ⟨hp ▸ h1, hidx ▸ h2⟩
      have ihr := ih (stepDelta cfg s d) hcomp hrest_nn
        (by rw [htip, hp]; linarith)
        (by rw [htip, hp]; linarith)
        hterm'
      refine ⟨?_, ?_, ?_, ?_, ?_, ?_⟩
      · simp only [countFires, hfb, if_false]
        simpa using ihr.1
      · simp only [countCompletions, hnc, if_false]
        simpa using ihr.2.1
      · simp only [runDelta]
        rw [ihr.2.2.1, hp]
      · simp only [runDelta]
        rw [ihr.2.2.2.1]
      · simp only [runDelta]
        rw [ihr.2.2.2.2.1, hidx, hp]
      · simp only [runDelta]
        exact ihr.2.2.2.2.2

theorem runTerminal_exact (cfg : TrialCfg) :
    ∀ (ds : List ℚ) (s : TrialState), s.complete = false →
      (∀ d ∈ ds, 0 ≤ d) →
      s.timeInPhase + ds.sum = phaseDuration cfg s.phase →
      s.timeInPhase < phaseDuration cfg s.phase →
      isTerminalPhase cfg s →
      countFires cfg s ds = 1 ∧
      countCompletions cfg s ds = 1 ∧
      (runDelta cfg s ds).complete = true := by
  intro ds
  induction ds with
  | nil =>
    intro s _ _ hsum hlt _
    exfalso
    rw [List.sum_nil, add_zero] at hsum
    exact absurd hsum (ne_of_lt hlt)
  | cons d rest ih =>
    intro s hc hnn hsum hlt hterm
    have hrest_nn : ∀ x ∈ rest, 0 ≤ x := fun x hx => hnn x (List.mem_cons_of_mem _ hx)
    have hrest_sum := List.sum_nonneg hrest_nn
    rw [List.sum_cons] at hsum
    by_cases hfire : phaseDuration cfg s.phase ≤ s.timeInPhase + d
    · have hcomp := stepDelta_fire_terminal cfg s d hc hfire hterm
      have hfb : firesAt cfg s d = true := by simp [firesAt, hc, hfire]
      have hcc : (!s.complete && (stepDelta cfg s d).complete) = true := by
        simp [hc, hcomp]
      have habs := runDelta_complete cfg rest (stepDelta cfg s d) hcomp
      refine ⟨?_, ?_, ?_⟩
      · simp only [countFires, hfb, if_true]
        rw [habs.2.1]
      · simp only [countCompletions, hcc, if_true]
        rw [habs.2.2]
      · simp only [runDelta]
        rw [habs.1]
        exact hcomp
    · push_neg at hfire
      obtain ⟨hp, htip, hidx, hcomp⟩ := stepDelta_no_fire cfg s d hc hfire
      have hfb : firesAt cfg s d = false := by
        simp [firesAt, hc, not_le.mpr hfire]
      have hnc : (!s.complete && (stepDelta cfg s d).complete) = false := by
        simp [hcomp]
      have hterm' : isTerminalPhase cfg (stepDelta cfg s d) :=
        ⟨hp ▸ hterm.1, hidx ▸ hterm.2⟩
      have ihr := ih (stepDelta cfg s d) hcomp hrest_nn
        (by rw [htip, hp]; linarith)
        (by rw [htip, hp]; linarith)
        hterm'
      refine ⟨?_, ?_, ?_⟩
      · simp only [countFires, hfb, if_false]
        simpa using ihr.1
      · simp only [countCompletions, hnc, if_false]
        simpa using ihr.2.1
      · simp only [runDelta]
        exact ihr.2.2

theorem runDelta_append (cfg : TrialCfg) :
    ∀ (l1 l2 : List ℚ) (s : TrialState),
      runDelta cfg s (l1 ++ l2) = runDelta cfg (runDelta cfg s l1) l2 := by
  intro l1
  induction l1 with
  | nil => intro l2 s; rfl
  | cons d rest ih =>
    intro l2 s
    simp only [List.cons_append]
    show runDelta cfg (stepDelta cfg s d) (rest ++ l2) =
      runDelta cfg (runDelta cfg (stepDelta cfg s d) rest) l2
    exact ih l2 (stepDelta cfg s d)

theorem countCompletions_append (cfg : TrialCfg) :
    ∀ (l1 l2 : List ℚ) (s : TrialState),
      countCompletions cfg s (l1 ++ l2) =
        countCompletions cfg s l1 + countCompletions cfg (runDelta cfg s l1) l2 := by
  intro l1
  induction l1 with
  | nil => intro l2 s; simp [countCompletions, runDelta]
  | cons d rest ih =>
    intro l2 s
    simp only [List.cons_append]
    show (if !s.complete && (stepDelta cfg s d).complete then 1 else 0) +
        countCompletions cfg (stepDelta cfg s d) (rest ++ l2) =
      (if !s.complete && (stepDelta cfg s d).complete then 1 else 0) +
        countCompletions cfg (stepDelta cfg s d) rest +
        countCompletions cfg (runDelta cfg (stepDelta cfg s d) rest) l2
    rw [ih l2 (stepDelta cfg s d)]
    omega

/-- The per-phase groups of delta times of one trial, in `PHASE_ORDER`. -/
structure TrialDeltas where
  restTicks : List ℚ
  preparationTicks : List ℚ
  executionTicks : List ℚ
  returnTicks : List ℚ

/-- The ticks of a trial, concatenated in phase order. -/
def TrialDeltas.flat (t : TrialDeltas) : List ℚ :=
  t.restTicks ++ (t.preparationTicks ++ (t.executionTicks ++ t.returnTicks))

/-- Each group is nonnegative and sums exactly to its phase's configured
duration (the "no overshoot is discarded" alignment). -/
def goodTrial (cfg : TrialCfg) (t : TrialDeltas) : Prop :=
  (∀ d ∈ t.restTicks, 0 ≤ d) ∧ t.restTicks.sum = cfg.restDuration ∧
  (∀ d ∈ t.preparationTicks, 0 ≤ d) ∧ t.preparationTicks.sum = cfg.preparationDuration ∧
  (∀ d ∈ t.executionTicks, 0 ≤ d) ∧ t.executionTicks.sum = cfg.executionDuration ∧
  (∀ d ∈ t.returnTicks, 0 ≤ d) ∧ t.returnTicks.sum = cfg.returnCueDuration

/-- The ticks of a whole session, one `TrialDeltas` per sequence entry. -/
def sessionDeltas (ts : List TrialDeltas) : List ℚ :=
  (ts.map TrialDeltas.flat).flatten

/-- The machine is at the start of trial `i`, rest phase, timer zero. -/
def alignedAt (s : TrialState) (i : ℕ) : Prop :=
  s.phase = .rest ∧ s.timeInPhase = 0 ∧ s.poseIndex = i ∧ s.complete = false

theorem runTrialStep (cfg : TrialCfg) (hdur : durationsPos cfg)
    (s : TrialState) (i : ℕ) (t : TrialDeltas) (ha : alignedAt s i)
    (hlt : i + 1 < cfg.poseSequence.length) (hg : goodTrial cfg t) :
    alignedAt (runDelta cfg s t.flat) (i + 1) ∧
    countCompletions cfg s t.flat = 0 := by
  obtain ⟨hph, htip, hidx, hcomp⟩ := ha
  obtain ⟨hr1, hr2, hp1, hp2, he1, he2, ht1, ht2⟩ := hg
  have hnotrc : ∀ s' : TrialState, s'.phase ≠ TPhase.returnCue →
      ¬ isTerminalPhase cfg s' := fun s' hne hcon => hne hcon.1
  suffices h : (runDelta cfg s t.flat).phase = TPhase.rest ∧
      (runDelta cfg s t.flat).timeInPhase = 0 ∧
      (runDelta cfg s t.flat).poseIndex = i + 1 ∧
      (runDelta cfg s t.flat).complete = false ∧
      countCompletions cfg s t.flat = 0 by
    exact ⟨⟨h.1, h.2.1, h.2.2.1, h.2.2.2.1⟩, h.2.2.2.2⟩
  rw [TrialDeltas.flat, runDelta_append, countCompletions_append]
  obtain ⟨hf1, hc1, hph1, htip1, hidx1, hcm1⟩ :=
    runPhase_exact cfg hdur t.restTicks s hcomp hr1
      (by rw [htip, hph, hr2]; simp [phaseDuration])
      (by rw [htip, hph]; simpa [phaseDuration] using phaseDuration_pos cfg hdur .rest)
      (hnotrc s (by rw [hph]; simp))
  rw [hc1]
  generalize hg1 : runDelta cfg s t.restTicks = s1 at hph1 htip1 hidx1 hcm1 ⊢
  rw [hph] at hph1 hidx1
  have hph1' : s1.phase = TPhase.preparation := by rw [hph1]; rfl
  have hidx1' : s1.poseIndex = i := by rw [hidx1]; simp [hidx]
  rw [runDelta_append, countCompletions_append]
  obtain ⟨hf2, hc2, hph2, htip2, hidx2, hcm2⟩ :=
    runPhase_exact cfg hdur t.preparationTicks s1 hcm1 hp1
      (by rw [htip1, hph1', hp2]; simp [phaseDuration])
      (by rw [htip1, hph1']
          simpa [phaseDuration] using phaseDuration_pos cfg hdur .preparation)
      (hnotrc s1 (by rw [hph1']; simp))
  rw [hc2]
  generalize hg2 : runDelta cfg s1 t.preparationTicks = s2 at hph2 htip2 hidx2 hcm2 ⊢
  rw [hph1'] at hph2 hidx2
  have hph2' : s2.phase = TPhase.execution := by rw [hph2]; rfl
  have hidx2' : s2.poseIndex = i := by rw [hidx2]; simp [hidx1']
  rw [runDelta_append, countCompletions_append]
  obtain ⟨hf3, hc3, hph3, htip3, hidx3, hcm3⟩ :=
    runPhase_exact cfg hdur t.executionTicks s2 hcm2 he1
      (by rw [htip2, hph2', he2]; simp [phaseDuration])
      (by rw [htip2, hph2']
          simpa [phaseDuration] using phaseDuration_pos cfg hdur .execution)
      (hnotrc s2 (by rw [hph2']; simp))
  rw [hc3]
  generalize hg3 : runDelta cfg s2 t.executionTicks = s3 at hph3 htip3 hidx3 hcm3 ⊢
  rw [hph2'] at hph3 hidx3
  have hph3' : s3.phase = TPhase.returnCue := by rw [hph3]; rfl
  have hidx3' : s3.poseIndex = i := by rw [hidx3]; simp [hidx2']
  have hterm3 : ¬ isTerminalPhase cfg s3 := by
    intro hcon
    have := hcon.2
    rw [hidx3'] at this
    omega
  obtain ⟨hf4, hc4, hph4, htip4, hidx4, hcm4⟩ :=
    runPhase_exact cfg hdur t.returnTicks s3 hcm3 ht1
      (by rw [htip3, hph3', ht2]; simp [phaseDuration])
      (by rw [htip3, hph3']
          simpa [phaseDuration] using phaseDuration_pos cfg hdur .returnCue)
      hterm3
  rw [hc4]
  generalize hg4 : runDelta cfg s3 t.returnTicks = s4 at hph4 htip4 hidx4 hcm4 ⊢
  rw [hph3'] at hph4 hidx4
  have hph4' : s4.phase = TPhase.rest := by rw [hph4]; rfl
  have hidx4' : s4.poseIndex = i + 1 := by rw [hidx4]; simp [hidx3']
  exact ⟨hph4', htip4, hidx4', hcm4, rfl⟩

theorem runTrialLast (cfg : TrialCfg) (hdur : durationsPos cfg)
    (s : TrialState) (i : ℕ) (t : TrialDeltas) (ha : alignedAt s i)
    (hle : cfg.poseSequence.length ≤ i + 1) (hg : goodTrial cfg t) :
    (runDelta cfg s t.flat).complete = true ∧
    countCompletions cfg s t.flat = 1 := by
  obtain ⟨hph, htip, hidx, hcomp⟩ := ha
  obtain ⟨hr1, hr2, hp1, hp2, he1, he2, ht1, ht2⟩ := hg
  have hnotrc : ∀ s' : TrialState, s'.phase ≠ TPhase.returnCue →
      ¬ isTerminalPhase cfg s' := fun s' hne hcon => hne hcon.1
  rw [TrialDeltas.flat, runDelta_append, countCompletions_append]
  obtain ⟨hf1, hc1, hph1, htip1, hidx1, hcm1⟩ :=
    runPhase_exact cfg hdur t.restTicks s hcomp hr1
      (by rw [htip, hph, hr2]; simp [phaseDuration])
      (by rw [htip, hph]; simpa [phaseDuration] using phaseDuration_pos cfg hdur .rest)
      (hnotrc s (by rw [hph]; simp))
  rw [hc1]
  generalize hg1 : runDelta cfg s t.restTicks = s1 at hph1 htip1 hidx1 hcm1 ⊢
  rw [hph] at hph1 hidx1
  have hph1' : s1.phase = TPhase.preparation := by rw [hph1]; rfl
  have hidx1' : s1.poseIndex = i := by rw [hidx1]; simp [hidx]
  rw [runDelta_append, countCompletions_append]
  obtain ⟨hf2, hc2, hph2, htip2, hidx2, hcm2⟩ :=
    runPhase_exact cfg hdur t.preparationTicks s1 hcm1 hp1
      (by rw [htip1, hph1', hp2]; simp [phaseDuration])
      (by rw [htip1, hph1']
          simpa [phaseDuration] using phaseDuration_pos cfg hdur .preparation)
      (hnotrc s1 (by rw [hph1']; simp))
  rw [hc2]
  generalize hg2 : runDelta cfg s1 t.preparationTicks = s2 at hph2 htip2 hidx2 hcm2 ⊢
  rw [hph1'] at hph2 hidx2
  have hph2' : s2.phase = TPhase.execution := by rw [hph2]; rfl
  have hidx2' : s2.poseIndex = i := by rw [hidx2]; simp [hidx1']
  rw [runDelta_append, countCompletions_append]
  obtain ⟨hf3, hc3, hph3, htip3, hidx3, hcm3⟩ :=
    runPhase_exact cfg hdur t.executionTicks s2 hcm2 he1
      (by rw [htip2, hph2', he2]; simp [phaseDuration])
      (by rw [htip2, hph2']
          simpa [phaseDuration] using phaseDuration_pos cfg hdur .execution)
      (hnotrc s2 (by rw [hph2']; simp))
  rw [hc3]
  generalize hg3 : runDelta cfg s2 t.executionTicks = s3 at hph3 htip3 hidx3 hcm3 ⊢
  rw [hph2'] at hph3 hidx3
  have hph3' : s3.phase = TPhase.returnCue := by rw [hph3]; rfl
  have hidx3' : s3.poseIndex = i := by rw [hidx3]; simp [hidx2']
  have hterm3 : isTerminalPhase cfg s3 := by
    refine ⟨hph3', ?_⟩
    rw [hidx3']
    omega
  obtain ⟨hf4, hc4, hcm4⟩ :=
    runTerminal_exact cfg t.returnTicks s3 hcm3 ht1
      (by rw [htip3, hph3', ht2]; simp [phaseDuration])
      (by rw [htip3, hph3']
          simpa [phaseDuration] using phaseDuration_pos cfg hdur .returnCue)
      hterm3
  rw [hc4]
  exact ⟨hcm4, rfl⟩

theorem sessionDeltas_cons (t : TrialDeltas) (ts : List TrialDeltas) :
    sessionDeltas (t :: ts) = t.flat ++ sessionDeltas ts := by
  simp [sessionDeltas]

theorem runSession (cfg : TrialCfg) (hdur : durationsPos cfg) :
    ∀ (ts : List TrialDeltas) (s : TrialState) (i : ℕ), alignedAt s i →
      i + ts.length = cfg.poseSequence.length → ts ≠ [] →
      (∀ t ∈ ts, goodTrial cfg t) →
      (runDelta cfg s (sessionDeltas ts)).complete = true ∧
      countCompletions cfg s (sessionDeltas ts) = 1 := by
  intro ts
  induction ts with
  | nil => intro s i _ _ hne _; exact absurd rfl hne
  | cons t rest ih =>
    intro s i ha hlen _ hgood
    have hgt := hgood t (List.mem_cons_self _ _)
    have hgrest : ∀ t' ∈ rest, goodTrial cfg t' :=
      fun t' h => hgood t' (List.mem_cons_of_mem _ h)
    rw [sessionDeltas_cons, runDelta_append, countCompletions_append]
    cases rest with
    | nil =>
      have hle : cfg.poseSequence.length ≤ i + 1 := by
        simp at hlen
        omega
      obtain ⟨hcm, hcc⟩ := runTrialLast cfg hdur s i t ha hle hgt
      have habs := runDelta_complete cfg (sessionDeltas []) (runDelta cfg s t.flat) hcm
      rw [hcc, habs.1, habs.2.2]
      exact ⟨hcm, rfl⟩
    | cons t2 rest2 =>
      have hlt : i + 1 < cfg.poseSequence.length := by
        simp only [List.length_cons] at hlen
        omega
      obtain ⟨ha', hcc0⟩ := runTrialStep cfg hdur s i t ha hlt hgt
      have hrest := ih (runDelta cfg s t.flat) (i + 1) ha'
        (by simp only [List.length_cons] at hlen ⊢; omega)
        (by simp) (hgrest)
      rw [hcc0, hrest.1, hrest.2]
      exact ⟨rfl, rfl⟩

theorem stepDelta_fire_terminal_fields (cfg : TrialCfg) (s : TrialState) (d : ℚ)
    (hc : s.complete = false)
    (hge : phaseDuration cfg s.phase ≤ s.timeInPhase + d)
    (hterm : isTerminalPhase cfg s) :
    (stepDelta cfg s d).phase = s.phase ∧
    (stepDelta cfg s d).poseIndex = s.poseIndex ∧
    (stepDelta cfg s d).complete = true := by
  obtain ⟨hp, hle⟩ := hterm
  simp only [stepDelta, hc, if_pos hge]
  simp [hp, hle]

/-- C8: on any single tick with nonnegative delta time (including deltas far
exceeding one phase duration), the trial-based machine advances by at most one
phase in the global ordering, never moves backwards, and whenever its position
changes the resulting `timeInPhase` is exactly 0. -/
theorem stepDelta_at_most_one_phase (cfg : TrialCfg) (s : TrialState) (d : ℚ)
    (hc : s.complete = false) (hd : 0 ≤ d) :
    globalPos s ≤ globalPos (stepDelta cfg s d) ∧
    globalPos (stepDelta cfg s d) ≤ globalPos s + 1 ∧
    ((stepDelta cfg s d).complete = false →
      globalPos (stepDelta cfg s d) ≠ globalPos s →
      (stepDelta cfg s d).timeInPhase = 0) := by
  by_cases hfire : phaseDuration cfg s.phase ≤ s.timeInPhase + d
  · by_cases hterm : isTerminalPhase cfg s
    · obtain ⟨hp, hix, hcm⟩ := stepDelta_fire_terminal_fields cfg s d hc hfire hterm
      have heq : globalPos (stepDelta cfg s d) = globalPos s := by
        simp [globalPos, hp, hix]
      refine ⟨heq.ge, by rw [heq]; omega, fun hfalse _ => ?_⟩
      rw [hcm] at hfalse
      cases hfalse
    · obtain ⟨hp, ht2, hix, hcm⟩ := stepDelta_fire cfg s d hc hfire hterm
      have hbounds : globalPos (stepDelta cfg s d) = globalPos s + 1 := by
        cases hphase : s.phase
        all_goals rw [hphase] at hp hix
        all_goals simp only [globalPos, hp, hix, nextPhase, phasePos, hphase,
          reduceCtorEq, if_false, if_true, reduceIte]
        all_goals omega
      exact ⟨by omega, by omega, fun _ _ => ht2⟩
  · push_neg at hfire
    obtain ⟨hp, ht2, hix, hcm⟩ := stepDelta_no_fire cfg s d hc hfire
    have heq : globalPos (stepDelta cfg s d) = globalPos s := by
      simp [globalPos, hp, hix]
    exact ⟨heq.ge, by rw [heq]; omega, fun _ hne => absurd heq hne⟩

/-- C2 (amended): for every phase, feeding nonnegative deltas summing exactly
to that phase's duration from a phase start causes exactly one phase
transition, with `timeInPhase` reset to 0 and the machine advancing one step
in the ordering; overshoot is discarded and never negative; and feeding a
whole session of per-phase aligned groups (each group summing exactly to its
phase's duration — so the total equals the full session duration) drives the
machine to the terminal complete state exactly once, after which ticks are
no-ops.  (Deltas that merely *sum* to the session duration need not complete
the session, because overshoot is discarded at every boundary; see the
counterexample.) -/
theorem trial_machine_transitions (cfg : TrialCfg) (hdur : durationsPos cfg) :
    (∀ (s : TrialState) (ds : List ℚ),
        s.complete = false → s.timeInPhase = 0 → ¬ isTerminalPhase cfg s →
        (∀ d ∈ ds, 0 ≤ d) → ds.sum = phaseDuration cfg s.phase →
        countFires cfg s ds = 1 ∧
        (runDelta cfg s ds).phase = nextPhase s.phase ∧
        (runDelta cfg s ds).timeInPhase = 0 ∧
        (runDelta cfg s ds).complete = false) ∧
    (∀ (s : TrialState) (d : ℚ), firesAt cfg s d = true →
        0 ≤ s.timeInPhase + d - phaseDuration cfg s.phase) ∧
    (∀ ts : List TrialDeltas,
        ts.length = cfg.poseSequence.length → ts ≠ [] →
        (∀ t ∈ ts, goodTrial cfg t) →
        (runDelta cfg (initTrialState cfg) (sessionDeltas ts)).complete = true ∧
        countCompletions cfg (initTrialState cfg) (sessionDeltas ts) = 1 ∧
        ∀ d, stepDelta cfg (runDelta cfg (initTrialState cfg) (sessionDeltas ts)) d =
          runDelta cfg (initTrialState cfg) (sessionDeltas ts)) := by
  refine ⟨?_, ?_, ?_⟩
  · intro s ds hc ht hterm hnn hsum
    have h := runPhase_exact cfg hdur ds s hc hnn
      (by rw [ht, zero_add]; exact hsum)
      (by rw [ht]; exact phaseDuration_pos cfg hdur s.phase) hterm
    exact ⟨h.1, h.2.2.1, h.2.2.2.1, h.2.2.2.2.2⟩
  · intro s d hf
    simp only [firesAt, Bool.and_eq_true, decide_eq_true_eq] at hf
    linarith [hf.2]
  · intro ts hlen hne hgood
    have ha : alignedAt (initTrialState cfg) 0 := ⟨rfl, rfl, rfl, rfl⟩
    have h := runSession cfg hdur ts (initTrialState cfg) 0 ha
      (by simpa using hlen) hne hgood
    exact ⟨h.1, h.2, fun d => stepDelta_complete cfg _ d h.1⟩

/-- The default settings of the trial-based mode, with a one-entry sequence. -/
def defaultTrialCfg : TrialCfg :=
  { preparationDuration := 1000, executionDuration := 4000,
    returnCueDuration := 500, restDuration := 2000,
    interpolationType := .minimumJerk, poseSequence := ["open"] }

/-- C2 counterexample: a single tick whose delta time equals the full session
duration (7500 ms for one trial at the default durations) does not reach the
complete state — overshoot is discarded at the first boundary and the machine
has only advanced from rest to preparation. -/
theorem session_duration_sum_insufficient_cex :
    [(7500 : ℚ)].sum =
      defaultTrialCfg.poseSequence.length *
        (defaultTrialCfg.restDuration + defaultTrialCfg.preparationDuration +
          defaultTrialCfg.executionDuration + defaultTrialCfg.returnCueDuration) ∧
    (runDelta defaultTrialCfg (initTrialState defaultTrialCfg) [7500]).complete = false ∧
    (runDelta defaultTrialCfg (initTrialState defaultTrialCfg) [7500]).phase =
      TPhase.preparation := by
  refine ⟨by norm_num [defaultTrialCfg], ?_, ?_⟩ <;>
    norm_num [runDelta, stepDelta, initTrialState, defaultTrialCfg, phaseDuration]

/-- Witness for C2 (amended): the default configuration with one trial;
2000 ms of rest deltas cause exactly one transition, and the aligned session
`[2000], [1000], [4000], [500]` completes exactly once. -/
theorem trial_machine_transitions_w :
    countFires defaultTrialCfg (initTrialState defaultTrialCfg) [2000] = 1 ∧
    (runDelta defaultTrialCfg (initTrialState defaultTrialCfg)
        (sessionDeltas [⟨[2000], [1000], [4000], [500]⟩])).complete = true := by
  have hdur : durationsPos defaultTrialCfg := by
    norm_num [durationsPos, defaultTrialCfg]
  have h := trial_machine_transitions defaultTrialCfg hdur
  constructor
  · exact (h.1 (initTrialState defaultTrialCfg) [2000] rfl rfl
      (by rintro ⟨h1, _⟩; simp [initTrialState] at h1)
      (by norm_num)
      (by norm_num [initTrialState, phaseDuration, defaultTrialCfg])).1
  · exact (h.2.2 [⟨[2000], [1000], [4000], [500]⟩] (by rfl) (by simp)
      (by intro t ht
          rcases List.mem_cons.mp ht with rfl | hf
          · norm_num [goodTrial, defaultTrialCfg]
          · cases hf)).1

/-- Witness for C8 at the initial state with a huge 10^6 ms delta. -/
theorem stepDelta_at_most_one_phase_w :
    globalPos (initTrialState defaultTrialCfg) ≤
      globalPos (stepDelta defaultTrialCfg (initTrialState defaultTrialCfg) 1000000) ∧
    globalPos (stepDelta defaultTrialCfg (initTrialState defaultTrialCfg) 1000000) ≤
      globalPos (initTrialState defaultTrialCfg) + 1 ∧
    ((stepDelta defaultTrialCfg (initTrialState defaultTrialCfg) 1000000).complete = false →
      globalPos (stepDelta defaultTrialCfg (initTrialState defaultTrialCfg) 1000000) ≠
        globalPos (initTrialState defaultTrialCfg) →
      (stepDelta defaultTrialCfg (initTrialState defaultTrialCfg) 1000000).timeInPhase = 0) :=
  stepDelta_at_most_one_phase defaultTrialCfg (initTrialState defaultTrialCfg) 1000000
    rfl (by norm_num)

/-! ### Continuous-transition machine with pause/resume driver
(src/unnamed/part_000, `animate` and the start/stop effect, lines 126-241)

The animation effect runs whenever `isRunning && !isPaused` becomes true —
both on the initial start and on every resume — and it first executes
`lastTimestampRef.current = null; timeInPhaseRef.current = 0;` before
requesting the next frame.  Pausing only cancels the pending frame.  Inside
`animate`, `if (!lastTimestampRef.current)` re-initialises the clock, which
is also triggered by a stored timestamp of exactly 0 (JS falsiness). -/

/-- JS falsiness of the stored `lastTimestampRef` (`null` or `0`). -/
def jsFalsy : Option ℚ → Bool
  | none => true
  | some l => decide (l = 0)

/-- The two phases of the continuous-transition mode. -/
inductive CPhase
  | rest
  | transition
deriving DecidableEq

/-- Per-session settings and generated sequence of the continuous mode. -/
structure ContCfg where
  restDuration : ℚ
  transitionDuration : ℚ
  interpolationType : InterpolationType
  poseSequence : List String

/-- The mutable refs of the continuous-mode animate loop (the append-only
data log and `sessionStartTimeRef`, which feed no control decision, are not
carried). -/
structure CState where
  phase : CPhase
  timeInPhase : ℚ
  poseIndex : ℕ
  current : Pose
  target : Pose
  previousPose : Pose
  lastTimestamp : Option ℚ
  complete : Bool
deriving DecidableEq

/-- The body of the continuous-mode `animate` after `deltaTime` has been
computed and `lastTimestampRef` updated. -/
def stepContDelta (cfg : ContCfg) (s : CState) (delta : ℚ) : CState :=
  let newTime := s.timeInPhase + delta
  let dur := if s.phase = CPhase.rest then cfg.restDuration else cfg.transitionDuration
  let progress := min (newTime / dur) 1
  let current :=
    if s.phase = CPhase.transition then
      interpolatePoses s.previousPose s.target progress cfg.interpolationType
    else s.current
  if dur ≤ newTime then
    if s.phase = CPhase.rest then
      if cfg.poseSequence.length ≤ s.poseIndex + 1 then
        { s with timeInPhase := newTime, current := current, complete := true }
      else
        { s with timeInPhase := 0, current := current, previousPose := current,
                 target := getPose (cfg.poseSequence.get? (s.poseIndex + 1)),
                 poseIndex := s.poseIndex + 1, phase := CPhase.transition }
    else
      { s with timeInPhase := 0, current := s.target, previousPose := s.target,
               phase := CPhase.rest }
  else { s with timeInPhase := newTime, current := current }

/-- One `animate` callback of the continuous mode at a raw timestamp: clock
(re-)initialisation, delta computation, then the body.  After the session
completes the frame loop is cancelled and no tick is delivered. -/
def stepCont (cfg : ContCfg) (s : CState) (ts : ℚ) : CState :=
  if s.complete then s else
  let prev := if jsFalsy s.lastTimestamp then ts else s.lastTimestamp.getD ts
  stepContDelta cfg { s with lastTimestamp := some ts } (ts - prev)

/-- Folding a list of frame timestamps through the machine. -/
def runCont (cfg : ContCfg) : CState → List ℚ → CState
  | s, [] => s
  | s, ts :: rest => runCont cfg (stepCont cfg s ts) rest

/-- The start/resume effect: `lastTimestampRef.current = null;
timeInPhaseRef.current = 0;` before the next frame is requested. -/
def resumeCont (s : CState) : CState :=
  { s with lastTimestamp := none, timeInPhase := 0 }

/-- A session event: a frame tick, a pause (which only cancels the pending
frame callback), or a resume. -/
inductive ContEv
  | tick (ts : ℚ)
  | pauseEv
  | resumeEv

/-- Applying session events to the machine state. -/
def applyContEv (cfg : ContCfg) (s : CState) : ContEv → CState
  | .tick ts => stepCont cfg s ts
  | .pauseEv => s
  | .resumeEv => resumeCont s

/-- Running a list of session events. -/
def runContEvents (cfg : ContCfg) : CState → List ContEv → CState
  | s, [] => s
  | s, e :: es => runContEvents cfg (applyContEv cfg s e) es

/-- Equality of all observable fields (everything except the stored clock
timestamp). -/
def contObsEq (s1 s2 : CState) : Prop :=
  s1.phase = s2.phase ∧ s1.timeInPhase = s2.timeInPhase ∧
  s1.poseIndex = s2.poseIndex ∧ s1.current = s2.current ∧
  s1.target = s2.target ∧ s1.previousPose = s2.previousPose ∧
  s1.complete = s2.complete

/-- Agreement on every observable field except the phase timer. -/
def contAgreeExceptTimer (s1 s2 : CState) : Prop :=
  s1.phase = s2.phase ∧ s1.poseIndex = s2.poseIndex ∧ s1.current = s2.current ∧
  s1.target = s2.target ∧ s1.previousPose = s2.previousPose ∧
  s1.complete = s2.complete

/-- The default continuous-mode configuration with a two-entry sequence. -/
def defaultContCfg : ContCfg :=
  { restDuration := 2000, transitionDuration := 1200,
    interpolationType := .minimumJerk, poseSequence := ["neutral", "open"] }

/-- The state set up by the initialisation effect of the continuous mode. -/
def initContState (cfg : ContCfg) : CState :=
  { phase := CPhase.rest, timeInPhase := 0, poseIndex := 0,
    current := getPose (cfg.poseSequence.get? 0),
    target := getPose (cfg.poseSequence.get? 0),
    previousPose := getPose (cfg.poseSequence.get? 0),
    lastTimestamp := none, complete := false }

/-- The shifted-clock simulation relation: the first state equals the second
with its stored timestamp shifted by the pause offset `c`, and the stored
timestamp (when present) stays positive in both runs (so JS falsiness
coincides with `null`). -/
def contShifted (c : ℚ) (s1 s2 : CState) : Prop :=
  s1 = { s2 with lastTimestamp := s2.lastTimestamp.map (· + c) } ∧
  (s2.lastTimestamp = none ∨
    ∃ l, s2.lastTimestamp = some l ∧ 0 < l ∧ 0 < l + c)

theorem stepContDelta_clock_congr (cfg : ContCfg) (s : CState) (a b : Option ℚ)
    (delta : ℚ) :
    stepContDelta cfg { s with lastTimestamp := a } delta =
      { stepContDelta cfg { s with lastTimestamp := b } delta with
        lastTimestamp := a } := by
  cases s
  simp only [stepContDelta]
  split_ifs <;> rfl

theorem stepContDelta_clock_preserved (cfg : ContCfg) (s : CState) (delta : ℚ) :
    (stepContDelta cfg s delta).lastTimestamp = s.lastTimestamp := by
  cases s
  simp only [stepContDelta]
  split_ifs <;> rfl

theorem stepCont_shift (cfg : ContCfg) (c : ℚ) (s1 s2 : CState) (ts : ℚ)
    (h : contShifted c s1 s2) (hts : 0 < ts) (htsc : 0 < ts + c) :
    contShifted c (stepCont cfg s1 (ts + c)) (stepCont cfg s2 ts) := by
  obtain ⟨hs1, hpos⟩ := h
  subst hs1
  by_cases hcm : s2.complete = true
  · have h1 : stepCont cfg { s2 with lastTimestamp := s2.lastTimestamp.map (· + c) }
        (ts + c) = { s2 with lastTimestamp := s2.lastTimestamp.map (· + c) } := by
      simp [stepCont, hcm]
    have h2 : stepCont cfg s2 ts = s2 := by simp [stepCont, hcm]
    rw [h1, h2]
    exact ⟨rfl, hpos⟩
  · have hcm2 : s2.complete = false := by
      revert hcm
      cases s2.complete <;> simp
    have hdelta :
        (ts + c) - (if jsFalsy (s2.lastTimestamp.map (· + c)) then ts + c
          else (s2.lastTimestamp.map (· + c)).getD (ts + c)) =
        ts - (if jsFalsy s2.lastTimestamp then ts else s2.lastTimestamp.getD ts) := by
      rcases hpos with hnone | ⟨l, hl, hl0, hlc⟩
      · rw [hnone]
        simp [jsFalsy]
      · rw [hl]
        simp only [Option.map_some', Option.getD_some, jsFalsy]
        rw [if_neg (by simpa using ne_of_gt hlc), if_neg (by simpa using ne_of_gt hl0)]
        ring
    have hL : stepCont cfg { s2 with lastTimestamp := s2.lastTimestamp.map (· + c) }
        (ts + c) =
        stepContDelta cfg { s2 with lastTimestamp := some (ts + c) }
          (ts - (if jsFalsy s2.lastTimestamp then ts else s2.lastTimestamp.getD ts)) := by
      rw [stepCont]
      rw [if_neg (by simp [hcm2])]
      show stepContDelta cfg { s2 with lastTimestamp := some (ts + c) }
          ((ts + c) - (if jsFalsy (s2.lastTimestamp.map (· + c)) then ts + c
            else (s2.lastTimestamp.map (· + c)).getD (ts + c))) =
        stepContDelta cfg { s2 with lastTimestamp := some (ts + c) }
          (ts - (if jsFalsy s2.lastTimestamp then ts else s2.lastTimestamp.getD ts))
      rw [hdelta]
    have hR : stepCont cfg s2 ts =
        stepContDelta cfg { s2 with lastTimestamp := some ts }
          (ts - (if jsFalsy s2.lastTimestamp then ts else s2.lastTimestamp.getD ts)) := by
      rw [stepCont]
      rw [if_neg (by simp [hcm2])]
    rw [hL, hR]
    constructor
    · rw [stepContDelta_clock_congr cfg s2 (some (ts + c)) (some ts)]
      rw [stepContDelta_clock_preserved]
      rfl
    · right
      refine ⟨ts, ?_, hts, htsc⟩
      rw [stepContDelta_clock_preserved]

theorem runCont_shift (cfg : ContCfg) (c : ℚ) :
    ∀ (tss : List ℚ) (s1 s2 : CState), contShifted c s1 s2 →
      (∀ t ∈ tss, 0 < t ∧ 0 < t + c) →
      contShifted c (runCont cfg s1 (tss.map (· + c))) (runCont cfg s2 tss) := by
  intro tss
  induction tss with
  | nil => intro s1 s2 h _; exact h
  | cons t rest ih =>
    intro s1 s2 h hts
    have ht := hts t (List.mem_cons_self _ _)
    have hrest : ∀ x ∈ rest, 0 < x ∧ 0 < x + c :=
      fun x hx => hts x (List.mem_cons_of_mem _ hx)
    rw [List.map_cons]
    exact ih (stepCont cfg s1 (t + c)) (stepCont cfg s2 t)
      (stepCont_shift cfg c s1 s2 t h ht.1 ht.2) hrest

/-- C1 counterexample: pause-then-resume does not preserve the accumulated
`timeInPhase`.  Run A starts at timestamp 100, ticks at 600, pauses for
4000 ms, resumes, and ticks at 4600 and 5100; the pause-omitted run B ticks at
100, 600, 1100, 1600 (the same frame cadence with the 4000 ms gap removed).
The claim says both runs accumulate the same `timeInPhase`, but run A ends
with 500 while run B ends with 1500, because the resume effect resets
`timeInPhaseRef.current` to 0 (part_000 lines 225-241). -/
theorem pause_resume_not_omission_cex :
    (runContEvents defaultContCfg (initContState defaultContCfg)
        [.resumeEv, .tick 100, .tick 600, .pauseEv, .resumeEv,
         .tick 4600, .tick 5100]).timeInPhase = 500 ∧
    (runContEvents defaultContCfg (initContState defaultContCfg)
        [.resumeEv, .tick 100, .tick 600, .tick 1100, .tick 1600]).timeInPhase = 1500 ∧
    ((500 : ℚ) = 1500 → False) := by
  refine ⟨?_, ?_, by norm_num⟩ <;>
    norm_num [runContEvents, applyContEv, stepCont, stepContDelta, resumeCont,
      runCont, initContState, defaultContCfg, jsFalsy]

/-- C1 (amended): while paused no time is delivered, and on resume the next
tick's delta is computed relative to the resume timestamp, so the paused
duration contributes zero: shifting every post-resume timestamp by an
arbitrary pause offset `c` leaves every observable field of the machine
unchanged.  However, the resume effect also resets the phase timer, so the
post-resume evolution equals that of the post-resume ticks run from
`timeInPhase = 0` — it is independent of the pre-pause `timeInPhase` (the
two starting states below may differ arbitrarily in their phase timers),
and therefore does not generally equal the pause-omitted run of the full
tick sequence. -/
theorem pause_resume_shift_and_reset (cfg : ContCfg) (c : ℚ) (s s2 : CState)
    (hagree : contAgreeExceptTimer s s2) (tss : List ℚ)
    (hts : ∀ t ∈ tss, 0 < t ∧ 0 < t + c) :
    contObsEq (runCont cfg (resumeCont s) (tss.map (· + c)))
      (runCont cfg (resumeCont s2) tss) := by
  have hsh : contShifted c (resumeCont s) (resumeCont s2) := by
    refine ⟨?_, Or.inl rfl⟩
    obtain ⟨e1, e2, e3, e4, e5, e6⟩ := hagree
    cases s
    cases s2
    dsimp only at e1 e2 e3 e4 e5 e6
    subst e1
    subst e2
    subst e3
    subst e4
    subst e5
    subst e6
    rfl
  obtain ⟨heq, _⟩ := runCont_shift cfg c tss (resumeCont s) (resumeCont s2) hsh hts
  rw [heq]
  exact ⟨rfl, rfl, rfl, rfl, rfl, rfl, rfl⟩

/-- Witness for C1 (amended): the concrete pause scenario of the
counterexample — the post-resume run with a 4000 ms pause offset is
observationally equal to the unshifted post-resume run. -/
theorem pause_resume_shift_and_reset_w :
    contObsEq
      (runCont defaultContCfg (resumeCont (initContState defaultContCfg))
        (List.map (· + 4000) [600, 1100]))
      (runCont defaultContCfg (resumeCont (initContState defaultContCfg))
        [600, 1100]) := by
  refine pause_resume_shift_and_reset defaultContCfg 4000
    (initContState defaultContCfg) (initContState defaultContCfg)
    ⟨rfl, rfl, rfl, rfl, rfl, rfl⟩ [600, 1100] ?_
  intro t ht
  rcases List.mem_cons.mp ht with rfl | ht
  · constructor <;> norm_num
  rcases List.mem_cons.mp ht with rfl | ht
  · constructor <;> norm_num
  cases ht

/-! ### Periodic alternation machine (src/src/components/PeriodicMotionMode.jsx,
`animate`, lines 199-341)

During `active`, a beat fires whenever `timestamp - lastBeatTimeRef` reaches
`beatInterval = 1000 / frequency`; each beat toggles `movingToTarget`,
records the pose held at that instant as the interpolation start, and
increments `beatCount`.  Between beats the pose interpolates from the
recorded start toward the target (or neutral), with progress capped at 1
after `transitionDuration`.  Phase end checks come after the beat logic.
The first tick (JS-falsy `lastTimestampRef`) initialises the clock, the beat
timer and the transition timer. -/

inductive PPhase
  | prep
  | active
deriving DecidableEq

/-- Per-session settings and generated trial sequence of the periodic mode. -/
structure PeriodicCfg where
  prepDuration : ℚ
  activeDuration : ℚ
  frequency : ℚ
  transitionDuration : ℚ
  interpolationType : InterpolationType
  trialSequence : List String

/-- `beatInterval = 1000 / frequency`. -/
def beatInterval (cfg : PeriodicCfg) : ℚ := 1000 / cfg.frequency

/-- The mutable refs of the periodic-mode animate loop (the data log and
`sessionStartTimeRef` feed no control decision and are not carried). -/
structure PState where
  phase : PPhase
  timeInPhase : ℚ
  trialIndex : ℕ
  movingToTarget : Bool
  beatCount : ℕ
  lastBeatTime : ℚ
  transitionStartTime : ℚ
  transitionStartPose : Pose
  current : Pose
  lastTimestamp : Option ℚ
  complete : Bool
deriving DecidableEq

/-- One `animate` callback of the periodic mode at a raw timestamp. -/
def stepP (cfg : PeriodicCfg) (s : PState) (ts : ℚ) : PState :=
  if s.complete then s else
  let lastBeat0 := if jsFalsy s.lastTimestamp then ts else s.lastBeatTime
  let transStart0 := if jsFalsy s.lastTimestamp then ts else s.transitionStartTime
  let prev := if jsFalsy s.lastTimestamp then ts else s.lastTimestamp.getD ts
  let newTime := s.timeInPhase + (ts - prev)
  let targetPose := getPose (cfg.trialSequence.get? s.trialIndex)
  if s.phase = PPhase.prep then
    if cfg.prepDuration ≤ newTime then
      { s with phase := PPhase.active, timeInPhase := 0, beatCount := 0,
               movingToTarget := false, lastBeatTime := ts,
               transitionStartTime := ts, transitionStartPose := s.current,
               lastTimestamp := some ts }
    else
      { s with timeInPhase := newTime, lastBeatTime := lastBeat0,
               transitionStartTime := transStart0, lastTimestamp := some ts }
  else
    let beatFire := beatInterval cfg ≤ ts - lastBeat0
    let lastBeat1 := if beatFire then ts else lastBeat0
    let mtt1 := if beatFire then !s.movingToTarget else s.movingToTarget
    let transStart1 := if beatFire then ts else transStart0
    let transPose1 := if beatFire then s.current else s.transitionStartPose
    let beatCount1 := if beatFire then s.beatCount + 1 else s.beatCount
    let tProgress := min ((ts - transStart1) / cfg.transitionDuration) 1
    let goal := if mtt1 then targetPose else getPose (some "neutral")
    let current1 := interpolatePoses transPose1 goal tProgress cfg.interpolationType
    if cfg.activeDuration ≤ newTime then
      if cfg.trialSequence.length ≤ s.trialIndex + 1 then
        { s with timeInPhase := newTime, lastTimestamp := some ts,
                 lastBeatTime := lastBeat1, transitionStartTime := transStart1,
                 transitionStartPose := transPose1, movingToTarget := mtt1,
                 beatCount := beatCount1, current := current1, complete := true }
      else
        { s with trialIndex := s.trialIndex + 1, phase := PPhase.prep,
                 timeInPhase := 0, beatCount := 0,
                 current := getPose (some "neutral"), movingToTarget := false,
                 lastTimestamp := some ts, lastBeatTime := lastBeat1,
                 transitionStartTime := transStart1, transitionStartPose := transPose1 }
    else
      { s with timeInPhase := newTime, lastTimestamp := some ts,
               lastBeatTime := lastBeat1, transitionStartTime := transStart1,
               transitionStartPose := transPose1, movingToTarget := mtt1,
               beatCount := beatCount1, current := current1 }

/-- Folding a list of frame timestamps through the periodic machine. -/
def runP (cfg : PeriodicCfg) : PState → List ℚ → PState
  | s, [] => s
  | s, ts :: rest => runP cfg (stepP cfg s ts) rest

/-- Whether a given tick fires a beat (the guard of the beat branch,
evaluated on the pre-tick state). -/
def beatFires (cfg : PeriodicCfg) (s : PState) (ts : ℚ) : Bool :=
  !s.complete && decide (s.phase = PPhase.active) &&
    decide (beatInterval cfg ≤
      ts - (if jsFalsy s.lastTimestamp then ts else s.lastBeatTime))

/-- The sequence of beat events of a run: for each firing tick, the beat
number (`beatCount` after increment) and the `movingToTarget` flag after the
toggle. -/
def beatTraceP (cfg : PeriodicCfg) : PState → List ℚ → List (ℕ × Bool)
  | _, [] => []
  | s, ts :: rest =>
    (if beatFires cfg s ts then [(s.beatCount + 1, !s.movingToTarget)] else []) ++
      beatTraceP cfg (stepP cfg s ts) rest

/-- The state set up by the initialisation/reset effects of the periodic
mode. -/
def initPState : PState :=
  { phase := PPhase.prep, timeInPhase := 0, trialIndex := 0,
    movingToTarget := false, beatCount := 0, lastBeatTime := 0,
    transitionStartTime := 0, transitionStartPose := getPose (some "neutral"),
    current := getPose (some "neutral"), lastTimestamp := none,
    complete := false }

/-- The C3 scenario: frequency 1.0 Hz (beat interval 1000 ms), active
duration 3000 ms, default prep duration 2000 ms, two trials. -/
def c3Cfg : PeriodicCfg :=
  { prepDuration := 2000, activeDuration := 3000, frequency := 1,
    transitionDuration := 300, interpolationType := .minimumJerk,
    trialSequence := ["open", "closedGrasp"] }

/-- A 500 ms frame cadence covering the whole two-trial session. -/
def c3Ticks : List ℚ :=
  [500, 1000, 1500, 2000, 2500, 3000, 3500, 4000, 4500, 5000, 5500,
   6000, 6500, 7000, 7500, 8000, 8500, 9000, 9500, 10000, 10500]

set_option maxHeartbeats 1600000 in
/-- C3: in the periodic paradigm with frequency 1.0 Hz (beat interval
1000 ms) and active duration 3000 ms, each of the two trials' active phases
produces exactly 3 beat events, with `movingToTarget` alternating and
toggling from `false` to `true` on the first beat of each trial; the
session then completes. -/
theorem periodic_three_beats_per_trial :
    beatTraceP c3Cfg initPState c3Ticks =
      [(1, true), (2, false), (3, true), (1, true), (2, false), (3, true)] ∧
    (runP c3Cfg initPState c3Ticks).complete = true := by
  have hN : getPose (some "neutral") = neutralPose := rfl
  have hO : getPose (some "open") = openPose := rfl
  have hC : getPose (some "closedGrasp") = closedGraspPose := rfl
  have hA : (PPhase.active = PPhase.prep) = False := eq_false (by decide)
  have hB : (PPhase.prep = PPhase.active) = False := eq_false (by decide)
  have e1 : stepP c3Cfg initPState 500 =
      ⟨PPhase.prep, 0, 0, false, 0, 500, 500, neutralPose, neutralPose, some 500, false⟩ := by
    norm_num [stepP, c3Cfg, jsFalsy, beatInterval, hA, initPState, hN]
  have e2 : stepP c3Cfg ⟨PPhase.prep, 0, 0, false, 0, 500, 500, neutralPose, neutralPose, some 500, false⟩ 1000 =
      ⟨PPhase.prep, 500, 0, false, 0, 500, 500, neutralPose, neutralPose, some 1000, false⟩ := by
    norm_num [stepP, c3Cfg, jsFalsy, beatInterval, hA]
  have e3 : stepP c3Cfg ⟨PPhase.prep, 500, 0, false, 0, 500, 500, neutralPose, neutralPose, some 1000, false⟩ 1500 =
      ⟨PPhase.prep, 1000, 0, false, 0, 500, 500, neutralPose, neutralPose, some 1500, false⟩ := by
    norm_num [stepP, c3Cfg, jsFalsy, beatInterval, hA]
  have e4 : stepP c3Cfg ⟨PPhase.prep, 1000, 0, false, 0, 500, 500, neutralPose, neutralPose, some 1500, false⟩ 2000 =
      ⟨PPhase.prep, 1500, 0, false, 0, 500, 500, neutralPose, neutralPose, some 2000, false⟩ := by
    norm_num [stepP, c3Cfg, jsFalsy, beatInterval, hA]
  have e5 : stepP c3Cfg ⟨PPhase.prep, 1500, 0, false, 0, 500, 500, neutralPose, neutralPose, some 2000, false⟩ 2500 =
      ⟨PPhase.active, 0, 0, false, 0, 2500, 2500, neutralPose, neutralPose, some 2500, false⟩ := by
    norm_num [stepP, c3Cfg, jsFalsy, beatInterval, hA]
  have e6 : stepP c3Cfg ⟨PPhase.active, 0, 0, false, 0, 2500, 2500, neutralPose, neutralPose, some 2500, false⟩ 3000 =
      ⟨PPhase.active, 500, 0, false, 0, 2500, 2500, neutralPose, neutralPose, some 3000, false⟩ := by
    norm_num [stepP, c3Cfg, jsFalsy, beatInterval, hA, interpolatePoses, interpolateThumb, interpolateFinger, smoothT, minimumJerk, lerp, neutralPose, openPose, closedGraspPose, hN, hO]
  have e7 : stepP c3Cfg ⟨PPhase.active, 500, 0, false, 0, 2500, 2500, neutralPose, neutralPose, some 3000, false⟩ 3500 =
      ⟨PPhase.active, 1000, 0, true, 1, 3500, 3500, neutralPose, neutralPose, some 3500, false⟩ := by
    norm_num [stepP, c3Cfg, jsFalsy, beatInterval, hA, interpolatePoses, interpolateThumb, interpolateFinger, smoothT, minimumJerk, lerp, neutralPose, openPose, closedGraspPose, hN, hO]
  have e8 : stepP c3Cfg ⟨PPhase.active, 1000, 0, true, 1, 3500, 3500, neutralPose, neutralPose, some 3500, false⟩ 4000 =
      ⟨PPhase.active, 1500, 0, true, 1, 3500, 3500, neutralPose, openPose, some 4000, false⟩ := by
    norm_num [stepP, c3Cfg, jsFalsy, beatInterval, hA, interpolatePoses, interpolateThumb, interpolateFinger, smoothT, minimumJerk, lerp, neutralPose, openPose, closedGraspPose, hN, hO]
  have e9 : stepP c3Cfg ⟨PPhase.active, 1500, 0, true, 1, 3500, 3500, neutralPose, openPose, some 4000, false⟩ 4500 =
      ⟨PPhase.active, 2000, 0, false, 2, 4500, 4500, openPose, openPose, some 4500, false⟩ := by
    norm_num [stepP, c3Cfg, jsFalsy, beatInterval, hA, interpolatePoses, interpolateThumb, interpolateFinger, smoothT, minimumJerk, lerp, neutralPose, openPose, closedGraspPose, hN, hO]
  have e10 : stepP c3Cfg ⟨PPhase.active, 2000, 0, false, 2, 4500, 4500, openPose, openPose, some 4500, false⟩ 5000 =
      ⟨PPhase.active, 2500, 0, false, 2, 4500, 4500, openPose, neutralPose, some 5000, false⟩ := by
    norm_num [stepP, c3Cfg, jsFalsy, beatInterval, hA, interpolatePoses, interpolateThumb, interpolateFinger, smoothT, minimumJerk, lerp, neutralPose, openPose, closedGraspPose, hN, hO]
  have e11 : stepP c3Cfg ⟨PPhase.active, 2500, 0, false, 2, 4500, 4500, openPose, neutralPose, some 5000, false⟩ 5500 =
      ⟨PPhase.prep, 0, 1, false, 0, 5500, 5500, neutralPose, neutralPose, some 5500, false⟩ := by
    norm_num [stepP, c3Cfg, jsFalsy, beatInterval, hA, hN]
  have e12 : stepP c3Cfg ⟨PPhase.prep, 0, 1, false, 0, 5500, 5500, neutralPose, neutralPose, some 5500, false⟩ 6000 =
      ⟨PPhase.prep, 500, 1, false, 0, 5500, 5500, neutralPose, neutralPose, some 6000, false⟩ := by
    norm_num [stepP, c3Cfg, jsFalsy, beatInterval, hA]
  have e13 : stepP c3Cfg ⟨PPhase.prep, 500, 1, false, 0, 5500, 5500, neutralPose, neutralPose, some 6000, false⟩ 6500 =
      ⟨PPhase.prep, 1000, 1, false, 0, 5500, 5500, neutralPose, neutralPose, some 6500, false⟩ := by
    norm_num [stepP, c3Cfg, jsFalsy, beatInterval, hA]
  have e14 : stepP c3Cfg ⟨PPhase.prep, 1000, 1, false, 0, 5500, 5500, neutralPose, neutralPose, some 6500, false⟩ 7000 =
      ⟨PPhase.prep, 1500, 1, false, 0, 5500, 5500, neutralPose, neutralPose, some 7000, false⟩ := by
    norm_num [stepP, c3Cfg, jsFalsy, beatInterval, hA]
  have e15 : stepP c3Cfg ⟨PPhase.prep, 1500, 1, false, 0, 5500, 5500, neutralPose, neutralPose, some 7000, false⟩ 7500 =
      ⟨PPhase.active, 0, 1, false, 0, 7500, 7500, neutralPose, neutralPose, some 7500, false⟩ := by
    norm_num [stepP, c3Cfg, jsFalsy, beatInterval, hA]
  have e16 : stepP c3Cfg ⟨PPhase.active, 0, 1, false, 0, 7500, 7500, neutralPose, neutralPose, some 7500, false⟩ 8000 =
      ⟨PPhase.active, 500, 1, false, 0, 7500, 7500, neutralPose, neutralPose, some 8000, false⟩ := by
    norm_num [stepP, c3Cfg, jsFalsy, beatInterval, hA, interpolatePoses, interpolateThumb, interpolateFinger, smoothT, minimumJerk, lerp, neutralPose, openPose, closedGraspPose, hN, hC]
  have e17 : stepP c3Cfg ⟨PPhase.active, 500, 1, false, 0, 7500, 7500, neutralPose, neutralPose, some 8000, false⟩ 8500 =
      ⟨PPhase.active, 1000, 1, true, 1, 8500, 8500, neutralPose, neutralPose, some 8500, false⟩ := by
    norm_num [stepP, c3Cfg, jsFalsy, beatInterval, hA, interpolatePoses, interpolateThumb, interpolateFinger, smoothT, minimumJerk, lerp, neutralPose, openPose, closedGraspPose, hN, hC]
  have e18 : stepP c3Cfg ⟨PPhase.active, 1000, 1, true, 1, 8500, 8500, neutralPose, neutralPose, some 8500, false⟩ 9000 =
      ⟨PPhase.active, 1500, 1, true, 1, 8500, 8500, neutralPose, closedGraspPose, some 9000, false⟩ := by
    norm_num [stepP, c3Cfg, jsFalsy, beatInterval, hA, interpolatePoses, interpolateThumb, interpolateFinger, smoothT, minimumJerk, lerp, neutralPose, openPose, closedGraspPose, hN, hC]
  have e19 : stepP c3Cfg ⟨PPhase.active, 1500, 1, true, 1, 8500, 8500, neutralPose, closedGraspPose, some 9000, false⟩ 9500 =
      ⟨PPhase.active, 2000, 1, false, 2, 9500, 9500, closedGraspPose, closedGraspPose, some 9500, false⟩ := by
    norm_num [stepP, c3Cfg, jsFalsy, beatInterval, hA, interpolatePoses, interpolateThumb, interpolateFinger, smoothT, minimumJerk, lerp, neutralPose, openPose, closedGraspPose, hN, hC]
  have e20 : stepP c3Cfg ⟨PPhase.active, 2000, 1, false, 2, 9500, 9500, closedGraspPose, closedGraspPose, some 9500, false⟩ 10000 =
      ⟨PPhase.active, 2500, 1, false, 2, 9500, 9500, closedGraspPose, neutralPose, some 10000, false⟩ := by
    norm_num [stepP, c3Cfg, jsFalsy, beatInterval, hA, interpolatePoses, interpolateThumb, interpolateFinger, smoothT, minimumJerk, lerp, neutralPose, openPose, closedGraspPose, hN, hC]
  have e21 : stepP c3Cfg ⟨PPhase.active, 2500, 1, false, 2, 9500, 9500, closedGraspPose, neutralPose, some 10000, false⟩ 10500 =
      ⟨PPhase.active, 3000, 1, true, 3, 10500, 10500, neutralPose, neutralPose, some 10500, true⟩ := by
    norm_num [stepP, c3Cfg, jsFalsy, beatInterval, hA, interpolatePoses, interpolateThumb, interpolateFinger, smoothT, minimumJerk, lerp, neutralPose, openPose, closedGraspPose, hN, hC]
  refine ⟨?_, ?_⟩
  · simp only [c3Ticks, beatTraceP]
    rw [e1, e2, e3, e4, e5, e6, e7, e8, e9, e10, e11, e12, e13, e14, e15, e16, e17, e18, e19, e20]
    norm_num [beatFires, jsFalsy, beatInterval, c3Cfg, initPState, hB]
  · simp only [c3Ticks, runP]
    rw [e1, e2, e3, e4, e5, e6, e7, e8, e9, e10, e11, e12, e13, e14, e15, e16, e17, e18, e19, e20, e21]
